import Mathlib

/-!
# disk-size-preallocation: a shallow embedding of `main.go`

The program keeps a volume at a target fill level by creating or deleting
1 GiB filler files under `<path>/.preallocation`.

Conventions of the embedding (64-bit target, `int` = `int64`):

* `uint64` values are `Nat`, `int64` values are `Int`; every operation that
  can overflow in Go is followed by an explicit wrap (`u64`, `i64`);
* a Go `string` is its byte sequence, `List Nat`;
* a Go `error` is `Option String`, `none` being `nil`;
* the file system is explicit state (`Node`), and everything the operating
  system decides (failing calls, short writes, clocks) is read from oracle
  records passed as arguments;
* `log.Fatal` ends the run with `ExitStatus.fatal`.
-/

namespace DiskPrealloc

/-! ## Machine integers -/

/-- Wrap an integer to `uint64`. -/
def u64 (n : Int) : Nat := (n % 2 ^ 64).toNat

/-- Wrap an integer to `int64` (two's complement). -/
def i64 (n : Int) : Int := (n + 2 ^ 63) % 2 ^ 64 - 2 ^ 63

/-- Source constant `KB = uint64(1024)`. -/
def KB : Nat := 1024

/-- Source constant `MB = uint64(1024 * 1024)`. -/
def MB : Nat := 1024 * 1024

/-- Source constant `GB = uint64(1024 * 1024 * 1024)`. -/
def GB : Nat := 1024 * 1024 * 1024

/-! ## Volume inspector -/

/-- The fields of `syscall.Statfs_t` that `getDiskSize` reads
(`Blocks`, `Bfree` are `uint64`, `Bsize` is `int64`). -/
structure Statfs_t where
  Blocks : Nat
  Bfree : Nat
  Bsize : Int
  deriving DecidableEq, Repr

/-- Body of `getDiskSize` after a successful `syscall.Statfs`:
`size := Blocks * uint64(Bsize)`, `free := Bfree * uint64(Bsize)`,
`used := size - free`, `return used / GB`, all in `uint64`. -/
def usedGB (stat : Statfs_t) : Nat :=
  let size := u64 ((stat.Blocks : Int) * (u64 stat.Bsize : Int))
  let free := u64 ((stat.Bfree : Int) * (u64 stat.Bsize : Int))
  let used := u64 ((size : Int) - (free : Int))
  used / GB

/-- The function `getDiskSize`: the argument is the outcome of `syscall.Statfs`
(`none` when the call fails); the result is `none` when the process is ended
by `log.Fatal`. -/
def getDiskSize (statfs : Option Statfs_t) : Option Nat :=
  match statfs with
  | none => none
  | some stat => some (usedGB stat)

/-! ## File system state -/

/-- A Go `string`: a sequence of bytes. -/
abbrev GoString := List Nat

/-- The bytes of an ASCII literal. -/
def ascii (s : String) : GoString := s.toList.map Char.toNat

/-- Go's `<` on strings: byte-wise lexicographic comparison. -/
def strLess : GoString → GoString → Bool
  | [], [] => false
  | [], _ :: _ => true
  | _ :: _, [] => false
  | a :: as, b :: bs =>
    if a < b then true else if b < a then false else strLess as bs

/-- Go's `<=` on strings. -/
def strLe (a b : GoString) : Bool := !strLess b a

/-- The file types an `fs.FileMode` distinguishes. -/
inductive FileType
  | regular
  | directory
  | symlink
  | device
  | socket
  | namedPipe
  deriving DecidableEq, Repr

/-- What `entry.Info()` reports for one directory entry: `Name()`, the type
bits of `Mode()`, and `Size()` (an `int64`). -/
structure Entry where
  Name : GoString
  Mode : FileType
  Size : Int
  deriving DecidableEq, Repr

/-- The method `info.IsDir()`. -/
def Entry.IsDir (e : Entry) : Bool := decide (e.Mode = FileType.directory)

/-- State of the path `<volume>/.preallocation`. -/
inductive Node
  | absent
  | notDir
  | dir (entries : List Entry)
  deriving DecidableEq, Repr

/-- Outcome of `os.Stat(dir)`. -/
inductive StatResult
  | err
  | notDir
  | isDir (entries : List Entry)

/-- The call `os.Stat(dir)`: it fails when the path is absent, or when the
oracle says so (for instance a permission error). -/
def osStat (fails : Bool) : Node → StatResult
  | Node.absent => StatResult.err
  | Node.notDir => if fails then StatResult.err else StatResult.notDir
  | Node.dir entries => if fails then StatResult.err else StatResult.isDir entries

/-- The library call `sort.Strings`: the list in increasing order
(insertion sort; the result of sorting by a total order is unique). -/
def sortStrings (files : List GoString) : List GoString :=
  files.insertionSort (fun a b => strLe a b = true)

/-! ## Reclaimer -/

/-- What the operating system decides during one call of `deleteChunk`. -/
structure DeleteOracle where
  statErr : Bool
  readDirErr : Bool
  infoErr : GoString → Bool
  removeErr : Bool

/-- The size test of `deleteChunk`: `uint64(info.Size()) >= (GB - 128*MB)`. -/
def sizeQualifies (e : Entry) : Bool := decide (GB - 128 * MB ≤ u64 e.Size)

/-- The loop `for _, entry := range entries` of `deleteChunk`, with `files`
the slice built so far. -/
def scanEntries (infoErr : GoString → Bool) :
    List Entry → List GoString → Except String (List GoString)
  | [], files => Except.ok files
  | e :: es, files =>
    if infoErr e.Name then Except.error "lstat"
    else if !e.IsDir then
      if sizeQualifies e then scanEntries infoErr es (files ++ [e.Name])
      else scanEntries infoErr es files
    else scanEntries infoErr es files

/-- The call `os.Remove(path.Join(dir, name))` on the directory listing. -/
def osRemove (name : GoString) (entries : List Entry) : List Entry :=
  entries.filter (fun e => decide (e.Name ≠ name))

/-- The function `deleteChunk`: returns the error and the new state of the
reserved path. `os.ReadDir` lists the entries sorted by name; the listing
order is immaterial here, since the kept names are sorted before one is
picked. Entry names are single path components, so `path.Join(dir, name)`
names exactly the entry `name`. -/
def deleteChunk (o : DeleteOracle) (node : Node) : Option String × Node :=
  match osStat o.statErr node with
  | StatResult.err => (some "preallocation directory not found", node)
  | StatResult.notDir => (some "preallocation directory is not a directory", node)
  | StatResult.isDir entries =>
    if o.readDirErr then (some "readdir", node)
    else
      match scanEntries o.infoErr entries [] with
      | Except.error e => (some e, node)
      | Except.ok files =>
        if files.length = 0 then (none, node)
        else
          let sorted := sortStrings files
          let target := sorted.getD (sorted.length - 1) []
          if o.removeErr then (some "remove", node)
          else (none, Node.dir (osRemove target entries))

/-! ## Allocator -/

/-- What the operating system decides during one call of `allocateChunk`:
`now` is `time.Now().UnixNano()`, `written x` the byte count the `x`-th
`file.Write` transfers. -/
structure AllocOracle where
  statErr : Bool
  mkdirErr : Bool
  now : Int
  createErr : Bool
  randErr : Nat → Bool
  written : Nat → Nat
  syncErr : Bool

/-- The call `fmt.Sprintf("%x", n)` for an `int64`. -/
def sprintfHex (n : Int) : GoString :=
  if n < 0 then 45 :: (Nat.toDigits 16 n.natAbs).map Char.toNat
  else (Nat.toDigits 16 n.natAbs).map Char.toNat

/-- The first statement of `allocateChunk`: `os.Stat`, then `os.Mkdir` when
it failed. Returns the listing of the reserved directory, or the error. -/
def ensureDir (o : AllocOracle) (node : Node) : Except String (List Entry) :=
  match osStat o.statErr node with
  | StatResult.err =>
    match node with
    | Node.absent => if o.mkdirErr then Except.error "mkdir" else Except.ok []
    | _ => Except.error "mkdir: file exists"
  | StatResult.notDir => Except.error "error create preallocation directory"
  | StatResult.isDir entries => Except.ok entries

/-- The call `os.Create(filePath)`, which creates or truncates the named
file: it fails on the oracle's word or when the name is a directory;
otherwise an entry of that name exists afterwards with length 0 (a new
regular file, or the existing entry truncated). -/
def osCreate (fails : Bool) (name : GoString) (entries : List Entry) :
    Option (List Entry) :=
  if fails then none
  else
    match entries.find? (fun e => decide (e.Name = name)) with
    | none => some (entries ++ [⟨name, FileType.regular, 0⟩])
    | some old =>
      if old.IsDir then none
      else some (entries.map (fun e => if e.Name = name then { e with Size := 0 } else e))

/-- The loop `for x := 0; x < 1024; x++` of `allocateChunk`; `todo` is
`1024 - x`. Returns the error and the byte counts of the writes made. -/
def writeLoop (random : Bool) (o : AllocOracle) : Nat → Nat → Option String × List Nat
  | 0, _ => (none, [])
  | todo + 1, x =>
    if random && o.randErr x then (some "rand.Read", [])
    else
      let n := min (o.written x) MB
      if n < MB then (some "write", [n])
      else
        let r := writeLoop random o todo (x + 1)
        (r.1, n :: r.2)

/-- Length of the open file after the writes: the entry `name` grows by the
bytes written. -/
def setSize (name : GoString) (size : Int) (entries : List Entry) : List Entry :=
  entries.map (fun e => if e.Name = name then { e with Size := size } else e)

/-- Result of `allocateChunk`: the error, the new state of the reserved path,
the name of the file it opened and the byte counts of its writes. -/
structure AllocResult where
  err : Option String
  node : Node
  name : GoString
  writes : List Nat

/-- The function `allocateChunk`. -/
def allocateChunk (random : Bool) (o : AllocOracle) (node : Node) : AllocResult :=
  match ensureDir o node with
  | Except.error e => ⟨some e, node, [], []⟩
  | Except.ok entries =>
    let name := sprintfHex o.now
    match osCreate o.createErr name entries with
    | none => ⟨some "create", Node.dir entries, name, []⟩
    | some created =>
      let r := writeLoop random o 1024 0
      let after := Node.dir (setSize name (r.2.sum : Nat) created)
      match r.1 with
      | some e => ⟨some e, after, name, r.2⟩
      | none =>
        if o.syncErr then ⟨some "sync", after, name, r.2⟩
        else ⟨none, after, name, r.2⟩

/-! ## Convergence controller -/

/-- The two unit operations. -/
inductive Op
  | allocate
  | delete
  deriving DecidableEq, Repr

/-- Exit status of the process: `success` is 0, `fatal` is the status of
`log.Fatal`. -/
inductive ExitStatus
  | success
  | fatal
  deriving DecidableEq, Repr

/-- One executed loop iteration: the operation called, the error it
returned, and the duration measured (`none` when `log.Fatal` ended the
process before `time.Since`). -/
structure Event where
  op : Op
  err : Option String
  since : Option Int
  deriving DecidableEq, Repr

/-- A finished run of `main`. -/
structure Run where
  events : List Event
  exit : ExitStatus
  node : Node
  deriving DecidableEq, Repr

/-- What the environment decides during one run of `main`, per iteration
`x`: the oracles of the operation and the value of `time.Since(ts)` in
nanoseconds. -/
structure Env where
  allocOracle : Nat → AllocOracle
  deleteOracle : Nat → DeleteOracle
  since : Nat → Int

/-- The constant `time.Minute`, in nanoseconds. -/
def Minute : Int := 60 * 1000000000

/-- One of the two `for x := 0; x < newChunks; x++` loops of `main`; they
differ only in the operation called. `todo` is `newChunks - x`. -/
def loop (kind : Op) (op : Nat → Node → Option String × Node) (since : Nat → Int) :
    Nat → Nat → Node → Run
  | 0, _, node => ⟨[], ExitStatus.success, node⟩
  | todo + 1, x, node =>
    match op x node with
    | (some e, node1) => ⟨[⟨kind, some e, none⟩], ExitStatus.fatal, node1⟩
    | (none, node1) =>
      if since x > 10 * Minute then
        ⟨[⟨kind, none, some (since x)⟩], ExitStatus.success, node1⟩
      else
        let r := loop kind op since todo (x + 1) node1
        ⟨⟨kind, none, some (since x)⟩ :: r.events, r.exit, r.node⟩

/-- The operation an iteration of `main` calls, as a state transformer. -/
def unitOp (random : Bool) (env : Env) : Op → Nat → Node → Option String × Node
  | Op.allocate, x, node =>
    let r := allocateChunk random (env.allocOracle x) node
    (r.err, r.node)
  | Op.delete, x, node => deleteChunk (env.deleteOracle x) node

/-- The function `main`, for flags `--size size`, `--random random`, on a
volume whose `syscall.Statfs` result is `statfs` of the reserved path state. -/
def main (statfs : Node → Option Statfs_t) (size : Int) (random : Bool) (env : Env)
    (node : Node) : Run :=
  match getDiskSize (statfs node) with
  | none => ⟨[], ExitStatus.fatal, node⟩
  | some diskUsed =>
    let newChunks := i64 (size - i64 diskUsed)
    if newChunks > 0 then
      loop Op.allocate (unitOp random env Op.allocate) env.since newChunks.toNat 0 node
    else if newChunks < 0 then
      let newChunks := i64 (newChunks * -1)
      loop Op.delete (unitOp random env Op.delete) env.since newChunks.toNat 0 node
    else ⟨[], ExitStatus.success, node⟩

/-! ## Specification vocabulary -/

/-- The condition under which the loop body of `deleteChunk` appends an entry
to `files`: `!info.IsDir()` and the size test. -/
def qualifies (e : Entry) : Bool := !e.IsDir && sizeQualifies e

/-- The element `files[len(files)-1]` after `sort.Strings(files)`. -/
def lastSorted (files : List GoString) : GoString :=
  (sortStrings files).getD ((sortStrings files).length - 1) []

/-- State of the reserved path after the operations of iterations
`x, x+1, ..., x+k-1` have been applied in sequence. -/
def effects (op : Nat → Node → Option String × Node) : Nat → Nat → Node → Node
  | 0, _, node => node
  | k + 1, x, node => effects op k (x + 1) (op x node).2

/-- Number of calls of the operation `kind` in a run. -/
def calls (kind : Op) (r : Run) : Nat := r.events.countP (fun ev => decide (ev.op = kind))

/-- A delete oracle under which every system call succeeds. -/
def calmDelete : DeleteOracle := ⟨false, false, fun _ => false, false⟩

/-- An allocate oracle under which every system call succeeds and every write
is complete, at clock value `now`. -/
def calmAlloc (now : Int) : AllocOracle :=
  ⟨false, false, now, false, fun _ => false, fun _ => MB, false⟩

/-- An environment in which nothing fails and every iteration takes one second. -/
def calmEnv : Env := ⟨fun x => calmAlloc (1700000000000000000 + x), fun _ => calmDelete,
  fun _ => 1000000000⟩

/-- A volume of 2^52 blocks of 4096 bytes (16 EiB), none of them free. -/
def hugeVolume : Statfs_t := ⟨2 ^ 52, 0, 4096⟩

/-- A volume of 2^52 blocks of 4096 bytes (16 EiB), half of them free. -/
def halfFullVolume : Statfs_t := ⟨2 ^ 52, 2 ^ 51, 4096⟩

/-- A regular file of exactly 1 GiB with an ASCII name. -/
def filler (name : String) : Entry := ⟨ascii name, FileType.regular, 2 ^ 30⟩

/-- The reserved directory of the selection example: three full-size fillers. -/
def exampleDir : List Entry := [filler "1a2b", filler "1a2c", filler "0fff"]

/-- A reserved directory holding one named pipe whose reported size is 1 GiB. -/
def pipeDir : List Entry := [⟨ascii "fifo", FileType.namedPipe, 2 ^ 30⟩]

/-- A reserved directory holding a file one byte under the threshold, a file
exactly at it, and a subdirectory of large reported size. -/
def mixedDir : List Entry :=
  [⟨ascii "short", FileType.regular, 939524095⟩, ⟨ascii "edge", FileType.regular, 939524096⟩,
    ⟨ascii "sub", FileType.directory, 2 ^ 30⟩]

/-- A reserved directory with only an undersized file. -/
def smallDir : List Entry := [⟨ascii "short", FileType.regular, 939524095⟩]

/-- A delete oracle under which only `os.ReadDir` fails. -/
def unreadable : DeleteOracle := ⟨false, true, fun _ => false, false⟩

/-- An environment like `calmEnv` in which the second delete finds the
directory unreadable. -/
def failSecondEnv : Env := ⟨fun x => calmAlloc (1700000000000000000 + x),
  fun x => if x = 1 then unreadable else calmDelete, fun _ => 1000000000⟩

/-- An environment like `calmEnv` in which the first iteration takes exactly
ten minutes and the second one nanosecond more. -/
def slowSecondEnv : Env := ⟨fun x => calmAlloc (1700000000000000000 + x), fun _ => calmDelete,
  fun x => if x = 0 then 600000000000 else 600000000001⟩

/-- A volume of 2^20 blocks of 4096 bytes with nothing in use. -/
def emptyVolume : Statfs_t := ⟨2 ^ 20, 2 ^ 20, 4096⟩

/-- A volume of 2^20 blocks of 4096 bytes with exactly 2 GiB in use. -/
def twoGiBVolume : Statfs_t := ⟨2 ^ 20, 2 ^ 20 - 2 ^ 19, 4096⟩

/-- Entries of the reserved directory; none when the path is absent or is
not a directory. -/
def dirEntries : Node → List Entry
  | Node.dir entries => entries
  | _ => []

/-- What `syscall.Statfs` reports on a volume of `blocks` blocks of 4096
bytes on which data outside the reserved directory occupies `other` blocks
and every entry of the reserved directory occupies 2^18 blocks (1 GiB). -/
def unitVolume (blocks other : Nat) (node : Node) : Option Statfs_t :=
  some ⟨blocks, blocks - (other + 2 ^ 18 * (dirEntries node).length), 4096⟩

/-! ## Machine integer facts -/

theorem u64_eq {n : Int} (h0 : 0 ≤ n) (h1 : n < 2 ^ 64) : (u64 n : Int) = n := by
  unfold u64
  rw [Int.emod_eq_of_lt h0 h1, Int.toNat_of_nonneg h0]

theorem u64_lt (n : Int) : u64 n < 2 ^ 64 := by
  unfold u64
  have h := Int.emod_lt_of_pos n (show (0 : Int) < 2 ^ 64 by norm_num)
  have h0 := Int.emod_nonneg n (show (2 ^ 64 : Int) ≠ 0 by norm_num)
  omega

theorem i64_eq {n : Int} (h0 : -2 ^ 63 ≤ n) (h1 : n < 2 ^ 63) : i64 n = n := by
  unfold i64
  rw [Int.emod_eq_of_lt (by omega) (by omega)]
  omega

theorem usedGB_lt (st : Statfs_t) : usedGB st < 2 ^ 34 := by
  unfold usedGB
  have h := u64_lt (((u64 ((st.Blocks : Int) * (u64 st.Bsize : Int)) : Nat) : Int) -
    ((u64 ((st.Bfree : Int) * (u64 st.Bsize : Int)) : Nat) : Int))
  simp only [GB]
  omega

theorem u64_cast (n : Int) : ((u64 n : Nat) : Int) = n % 2 ^ 64 := by
  unfold u64
  exact Int.toNat_of_nonneg (Int.emod_nonneg n (by norm_num))

theorem u64_congr {a b : Int} (h : a % 2 ^ 64 = b % 2 ^ 64) : u64 a = u64 b := by
  unfold u64
  rw [h]

/-- The three wraps of `getDiskSize` amount to one wrap of the exact used
byte count. -/
theorem usedGB_eq (st : Statfs_t) :
    usedGB st = u64 ((st.Blocks : Int) * st.Bsize - (st.Bfree : Int) * st.Bsize) / GB := by
  unfold usedGB
  simp only
  congr 1
  apply u64_congr
  rw [u64_cast, u64_cast, u64_cast, ← Int.sub_emod]
  have h1 : (st.Blocks : Int) * (st.Bsize % 2 ^ 64) - (st.Bfree : Int) * (st.Bsize % 2 ^ 64) =
      ((st.Blocks : Int) - st.Bfree) * (st.Bsize % 2 ^ 64) := by ring
  have h2 : (st.Blocks : Int) * st.Bsize - (st.Bfree : Int) * st.Bsize =
      ((st.Blocks : Int) - st.Bfree) * st.Bsize := by ring
  rw [h1, h2, Int.mul_emod, Int.emod_emod, ← Int.mul_emod]

/-! ## The string order -/

theorem strLess_iff_lex (a b : GoString) :
    strLess a b = true ↔ List.Lex (fun x y : Nat => x < y) a b := by
  induction a generalizing b with
  | nil =>
    cases b with
    | nil => simp [strLess]
    | cons y ys => simp [strLess, List.Lex.nil]
  | cons x xs ih =>
    cases b with
    | nil => simp [strLess]
    | cons y ys =>
      rcases Nat.lt_trichotomy x y with h | h | h
      · simp [strLess, h, List.Lex.rel h]
      · subst h
        simp [strLess, ih, List.Lex.cons_iff]
      · have h1 : ¬ x < y := by omega
        simp only [strLess, h1, h, if_true, if_false]
        constructor
        · intro hf; cases hf
        · intro hl
          cases hl with
          | cons hl => omega
          | rel hl => omega

theorem strLe_refl (a : GoString) : strLe a a = true := by
  induction a with
  | nil => simp [strLe, strLess]
  | cons x xs ih => simpa [strLe, strLess] using ih

theorem strLe_total (a b : GoString) : strLe a b = true ∨ strLe b a = true := by
  induction a generalizing b with
  | nil => cases b <;> simp [strLe, strLess]
  | cons x xs ih =>
    cases b with
    | nil => simp [strLe, strLess]
    | cons y ys =>
      rcases Nat.lt_trichotomy x y with h | h | h
      · have h1 : ¬ y < x := by omega
        simp [strLe, strLess, h, h1]
      · subst h
        simpa [strLe, strLess] using ih ys
      · have h1 : ¬ x < y := by omega
        simp [strLe, strLess, h, h1]

theorem strLe_trans {a b c : GoString} (hab : strLe a b = true) (hbc : strLe b c = true) :
    strLe a c = true := by
  induction a generalizing b c with
  | nil => cases c <;> simp [strLe, strLess]
  | cons x xs ih =>
    cases b with
    | nil => simp [strLe, strLess] at hab
    | cons y ys =>
      cases c with
      | nil => simp [strLe, strLess] at hbc
      | cons z zs =>
        simp only [strLe, strLess] at hab hbc ⊢
        rcases Nat.lt_trichotomy x y with h | h | h
        · have h1 : ¬ y < x := by omega
          rcases Nat.lt_trichotomy y z with k | k | k
          · have k1 : ¬ z < x := by omega
            have k2 : x < z := by omega
            simp [k1, k2]
          · subst k
            simp [h, h1]
          · have k1 : ¬ y < z := by omega
            simp [k, k1] at hbc
        · subst h
          rcases Nat.lt_trichotomy x z with k | k | k
          · have k1 : ¬ z < x := by omega
            simp [k, k1]
          · subst k
            simp only [lt_irrefl, if_false] at hab hbc ⊢
            exact ih hab hbc
          · have k1 : ¬ x < z := by omega
            simp [k, k1] at hbc
        · have h1 : ¬ x < y := by omega
          simp [h, h1] at hab

theorem strLe_antisymm {a b : GoString} (hab : strLe a b = true) (hba : strLe b a = true) :
    a = b := by
  induction a generalizing b with
  | nil =>
    cases b with
    | nil => rfl
    | cons y ys => simp [strLe, strLess] at hba
  | cons x xs ih =>
    cases b with
    | nil => simp [strLe, strLess] at hab
    | cons y ys =>
      simp only [strLe, strLess] at hab hba
      rcases Nat.lt_trichotomy x y with h | h | h
      · have h1 : ¬ y < x := by omega
        simp [h, h1] at hba
      · subst h
        simp only [lt_irrefl, if_false] at hab hba
        rw [ih hab hba]
      · have h1 : ¬ x < y := by omega
        simp [h, h1] at hab

instance strLe_isTotal : IsTotal GoString (fun a b => strLe a b = true) := ⟨strLe_total⟩

instance strLe_isTrans : IsTrans GoString (fun a b => strLe a b = true) :=
  ⟨fun _ _ _ h1 h2 => strLe_trans h1 h2⟩

theorem sortStrings_sorted (files : List GoString) :
    (sortStrings files).Sorted (fun a b => strLe a b = true) :=
  List.sorted_insertionSort _ files

theorem sortStrings_perm (files : List GoString) : (sortStrings files).Perm files :=
  List.perm_insertionSort _ files

theorem lastSorted_eq_getLast (files : List GoString) (h : sortStrings files ≠ []) :
    lastSorted files = (sortStrings files).getLast h := by
  unfold lastSorted
  have hlen : (sortStrings files).length - 1 < (sortStrings files).length := by
    have := List.length_pos.mpr h
    omega
  rw [List.getLast_eq_getElem, List.getD_eq_getElem _ _ hlen]

theorem sortStrings_ne_nil {files : List GoString} (h : files ≠ []) : sortStrings files ≠ [] := by
  intro hs
  have := (sortStrings_perm files).length_eq
  rw [hs] at this
  exact h (List.length_eq_zero.mp this.symm)

theorem lastSorted_mem {files : List GoString} (h : files ≠ []) : lastSorted files ∈ files := by
  rw [lastSorted_eq_getLast files (sortStrings_ne_nil h)]
  exact (sortStrings_perm files).mem_iff.mp (List.getLast_mem _)

theorem lastSorted_greatest {files : List GoString} (h : files ≠ []) :
    ∀ f ∈ files, strLe f (lastSorted files) = true := by
  intro f hf
  have hne := sortStrings_ne_nil h
  rw [lastSorted_eq_getLast files hne]
  have hf' : f ∈ sortStrings files := (sortStrings_perm files).mem_iff.mpr hf
  have hsorted := sortStrings_sorted files
  rw [← List.dropLast_append_getLast hne] at hf' hsorted
  rcases List.mem_append.mp hf' with hin | hin
  · have hp := (List.pairwise_append.mp hsorted).2.2
    have hlast : (sortStrings files).getLast hne ∈ [(sortStrings files).getLast hne] := by simp
    exact hp f hin _ hlast
  · have : f = (sortStrings files).getLast hne := by simpa using hin
    rw [this]
    exact strLe_refl _

/-! ## The reclaimer's scan -/

/-- Names of the entries the scan of `deleteChunk` keeps. -/
theorem scanEntries_ok (infoErr : GoString → Bool) (es : List Entry) (files : List GoString)
    (h : ∀ e ∈ es, infoErr e.Name = false) :
    scanEntries infoErr es files =
      Except.ok (files ++ (es.filter qualifies).map Entry.Name) := by
  induction es generalizing files with
  | nil => simp [scanEntries]
  | cons e es ih =>
    have he : infoErr e.Name = false := h e (List.mem_cons_self _ _)
    have hes : ∀ e ∈ es, infoErr e.Name = false := fun a ha => h a (List.mem_cons_of_mem _ ha)
    cases hd : e.IsDir <;> cases hs : sizeQualifies e <;>
      simp [scanEntries, he, hd, hs, qualifies, ih _ hes, List.filter_cons]

theorem scanEntries_info (infoErr : GoString → Bool) (es : List Entry)
    (files fs : List GoString) (h : scanEntries infoErr es files = Except.ok fs) :
    ∀ e ∈ es, infoErr e.Name = false := by
  induction es generalizing files with
  | nil => simp
  | cons e es ih =>
    cases he : infoErr e.Name
    · intro a ha
      rcases List.mem_cons.mp ha with rfl | ha
      · exact he
      · cases hd : e.IsDir <;> cases hs : sizeQualifies e <;>
          simp only [scanEntries, he, hd, hs, Bool.not_false, Bool.not_true, if_true, if_false,
            Bool.false_eq_true] at h <;>
          exact ih _ h a ha
    · simp [scanEntries, he] at h

theorem scanEntries_result (infoErr : GoString → Bool) (es : List Entry)
    (fs : List GoString) (h : scanEntries infoErr es [] = Except.ok fs) :
    fs = (es.filter qualifies).map Entry.Name := by
  have hinfo := scanEntries_info infoErr es [] fs h
  rw [scanEntries_ok infoErr es [] hinfo] at h
  simpa using (Except.ok.inj h).symm

theorem deleteChunk_statErr (o : DeleteOracle) (node : Node) (h : o.statErr = true) :
    deleteChunk o node = (some "preallocation directory not found", node) := by
  cases node <;> simp [deleteChunk, osStat, h]

theorem deleteChunk_readDirErr (o : DeleteOracle) (entries : List Entry)
    (h1 : o.statErr = false) (h2 : o.readDirErr = true) :
    deleteChunk o (Node.dir entries) = (some "readdir", Node.dir entries) := by
  simp [deleteChunk, osStat, h1, h2]

theorem deleteChunk_scanErr (o : DeleteOracle) (entries : List Entry) (e : String)
    (h1 : o.statErr = false) (h2 : o.readDirErr = false)
    (h3 : scanEntries o.infoErr entries [] = Except.error e) :
    deleteChunk o (Node.dir entries) = (some e, Node.dir entries) := by
  simp [deleteChunk, osStat, h1, h2, h3]

theorem deleteChunk_scanOk (o : DeleteOracle) (entries : List Entry) (files : List GoString)
    (h1 : o.statErr = false) (h2 : o.readDirErr = false)
    (h3 : scanEntries o.infoErr entries [] = Except.ok files) :
    deleteChunk o (Node.dir entries) =
      if files.length = 0 then (none, Node.dir entries)
      else if o.removeErr = true then (some "remove", Node.dir entries)
      else (none, Node.dir (osRemove (lastSorted files) entries)) := by
  simp only [deleteChunk, osStat, h1, h2, h3, lastSorted, Bool.false_eq_true, if_false]

/-- Every way `deleteChunk` can return `nil` on a directory. -/
theorem deleteChunk_nil (o : DeleteOracle) (entries : List Entry) (node1 : Node)
    (h : deleteChunk o (Node.dir entries) = (none, node1)) :
    (∀ e ∈ entries, o.infoErr e.Name = false) ∧
      (((entries.filter qualifies).map Entry.Name = [] ∧ node1 = Node.dir entries) ∨
        ((entries.filter qualifies).map Entry.Name ≠ [] ∧
          node1 = Node.dir (osRemove (lastSorted ((entries.filter qualifies).map Entry.Name))
            entries))) := by
  cases hst : o.statErr
  · cases hrd : o.readDirErr
    · cases hsc : scanEntries o.infoErr entries [] with
      | error e =>
        rw [deleteChunk_scanErr o entries e hst hrd hsc] at h
        simp at h
      | ok files =>
        have hinfo := scanEntries_info _ _ _ _ hsc
        have hfiles := scanEntries_result _ _ _ hsc
        refine ⟨hinfo, ?_⟩
        rw [deleteChunk_scanOk o entries files hst hrd hsc] at h
        by_cases hlen : files.length = 0
        · left
          rw [if_pos hlen] at h
          have hnil : files = [] := List.length_eq_zero.mp hlen
          exact ⟨by rw [← hfiles, hnil], (Prod.mk.inj h).2.symm⟩
        · right
          rw [if_neg hlen] at h
          have hne : files ≠ [] := fun hn => hlen (by simp [hn])
          cases hrm : o.removeErr
          · rw [if_neg (by simp [hrm])] at h
            refine ⟨by rw [← hfiles]; exact hne, ?_⟩
            rw [← hfiles]
            exact (Prod.mk.inj h).2.symm
          · rw [if_pos hrm] at h
            simp at h
    · rw [deleteChunk_readDirErr o entries hst hrd] at h
      simp at h
  · rw [deleteChunk_statErr o _ hst] at h
    simp at h

/-- The reserved path after `deleteChunk` on a directory, whatever is returned. -/
theorem deleteChunk_node (o : DeleteOracle) (entries : List Entry) :
    (deleteChunk o (Node.dir entries)).2 = Node.dir entries ∨
      ((entries.filter qualifies).map Entry.Name ≠ [] ∧
        (deleteChunk o (Node.dir entries)).2 =
          Node.dir (osRemove (lastSorted ((entries.filter qualifies).map Entry.Name)) entries)) := by
  cases hst : o.statErr
  · cases hrd : o.readDirErr
    · cases hsc : scanEntries o.infoErr entries [] with
      | error e =>
        rw [deleteChunk_scanErr o entries e hst hrd hsc]
        exact Or.inl rfl
      | ok files =>
        have hfiles := scanEntries_result _ _ _ hsc
        rw [deleteChunk_scanOk o entries files hst hrd hsc]
        by_cases hlen : files.length = 0
        · rw [if_pos hlen]
          exact Or.inl rfl
        · rw [if_neg hlen]
          have hne : files ≠ [] := fun hn => hlen (by simp [hn])
          cases hrm : o.removeErr
          · rw [if_neg (by simp)]
            right
            refine ⟨by rw [← hfiles]; exact hne, ?_⟩
            rw [← hfiles]
          · rw [if_pos rfl]
            exact Or.inl rfl
    · rw [deleteChunk_readDirErr o entries hst hrd]
      exact Or.inl rfl
  · rw [deleteChunk_statErr o _ hst]
    exact Or.inl rfl

/-- A name picked among the kept names belongs to exactly one entry when
names are unique. -/
theorem entry_of_name {entries : List Entry} (hnodup : (entries.map Entry.Name).Nodup)
    {a b : Entry} (ha : a ∈ entries) (hb : b ∈ entries) (hname : a.Name = b.Name) : a = b :=
  List.inj_on_of_nodup_map hnodup ha hb hname

/-! ## Claims on the volume inspector -/

/-- C7, as stated, fails: on a volume of 2^52 blocks of 4096 bytes with no free
block, the exact byte counts give floor((total - free) / 2^30) = 2^34, while
`getDiskSize` computes `Blocks * Bsize` in `uint64`, which wraps to 0, and
returns 0. -/
theorem getDiskSize_wraps_on_hugeVolume :
    hugeVolume.Bfree ≤ hugeVolume.Blocks ∧
      getDiskSize (some hugeVolume) = some 0 ∧
      ((hugeVolume.Blocks : Int) * hugeVolume.Bsize -
        (hugeVolume.Bfree : Int) * hugeVolume.Bsize) / 2 ^ 30 = 2 ^ 34 := by
  decide

/-- C7, amended: for every volume statistics with `Bfree <= Blocks` whose
used byte count `total - free` (total = Blocks * Bsize, free = Bfree * Bsize,
exact integers) lies in `[0, 2^64)`, `getDiskSize` returns the non-negative
integer floor((total - free) / 2^30), whatever the size of `total`; when the
used byte count lies outside that range the result differs from the floor. -/
theorem getDiskSize_floor (st : Statfs_t) (hfree : st.Bfree ≤ st.Blocks) :
    ((0 ≤ (st.Blocks : Int) * st.Bsize - (st.Bfree : Int) * st.Bsize ∧
        (st.Blocks : Int) * st.Bsize - (st.Bfree : Int) * st.Bsize < 2 ^ 64) →
      ∃ used : Nat, getDiskSize (some st) = some used ∧
        (used : Int) = ((st.Blocks : Int) * st.Bsize - (st.Bfree : Int) * st.Bsize) / 2 ^ 30 ∧
        (used : Int) * 2 ^ 30 ≤ (st.Blocks : Int) * st.Bsize - (st.Bfree : Int) * st.Bsize ∧
        (st.Blocks : Int) * st.Bsize - (st.Bfree : Int) * st.Bsize <
          ((used : Int) + 1) * 2 ^ 30) ∧
    (¬ (0 ≤ (st.Blocks : Int) * st.Bsize - (st.Bfree : Int) * st.Bsize ∧
        (st.Blocks : Int) * st.Bsize - (st.Bfree : Int) * st.Bsize < 2 ^ 64) →
      ∀ used : Nat, getDiskSize (some st) = some used →
        (used : Int) ≠ ((st.Blocks : Int) * st.Bsize - (st.Bfree : Int) * st.Bsize) / 2 ^ 30) := by
  have _ := hfree
  generalize hP : (st.Blocks : Int) * st.Bsize - (st.Bfree : Int) * st.Bsize = P
  have hused : usedGB st = u64 P / GB := by rw [← hP]; exact usedGB_eq st
  constructor
  · rintro ⟨h0, hlt⟩
    have hcast : ((usedGB st : Nat) : Int) = P / 2 ^ 30 := by
      rw [hused, Int.natCast_div, u64_eq h0 hlt]
      simp [GB]
    refine ⟨usedGB st, rfl, hcast, ?_, ?_⟩
    · rw [hcast]
      exact Int.ediv_mul_le _ (by norm_num)
    · rw [hcast]
      exact Int.lt_ediv_add_one_mul_self _ (by norm_num)
  · intro hout used hget heq
    have hu : used = usedGB st := by
      simp only [getDiskSize, Option.some.injEq] at hget
      exact hget.symm
    have hlt := usedGB_lt st
    rw [← hu] at hlt
    have hlt1 : (used : Int) < 2 ^ 34 := by exact_mod_cast hlt
    have h0 : (0 : Int) ≤ used := Int.natCast_nonneg _
    have hrange : 0 ≤ P ∧ P < 2 ^ 64 := by
      constructor
      · by_contra hneg
        have : P / 2 ^ 30 < 0 := Int.ediv_neg' (by omega) (by norm_num)
        omega
      · by_contra hbig
        have : (2 : Int) ^ 34 ≤ P / 2 ^ 30 := by
          apply Int.le_ediv_of_mul_le (by norm_num)
          omega
        omega
    exact hout hrange

/-- Witness of `getDiskSize_floor`: on a 16 EiB volume that is half full the total
byte count does not fit in `uint64`, the used byte count 2^63 does, and the
result is the exact 2^33. -/
theorem getDiskSize_floor_witness :
    ∃ used : Nat, getDiskSize (some halfFullVolume) = some used ∧
      (used : Int) = ((halfFullVolume.Blocks : Int) * halfFullVolume.Bsize -
        (halfFullVolume.Bfree : Int) * halfFullVolume.Bsize) / 2 ^ 30 ∧
      (used : Int) * 2 ^ 30 ≤ (halfFullVolume.Blocks : Int) * halfFullVolume.Bsize -
        (halfFullVolume.Bfree : Int) * halfFullVolume.Bsize ∧
      (halfFullVolume.Blocks : Int) * halfFullVolume.Bsize -
        (halfFullVolume.Bfree : Int) * halfFullVolume.Bsize < ((used : Int) + 1) * 2 ^ 30 :=
  (getDiskSize_floor halfFullVolume (by decide)).1 ⟨by decide, by decide⟩

/-! ## Claims on the reclaimer -/

theorem mem_scan_iff {infoErr : GoString → Bool} {entries : List Entry} {files : List GoString}
    (hscan : scanEntries infoErr entries [] = Except.ok files)
    (hnodup : (entries.map Entry.Name).Nodup) {e : Entry} (hmem : e ∈ entries) :
    e.Name ∈ files ↔ qualifies e = true := by
  rw [scanEntries_result _ _ _ hscan]
  constructor
  · intro h
    obtain ⟨a, ha, hname⟩ := List.mem_map.mp h
    have haq := List.mem_filter.mp ha
    have : a = e := entry_of_name hnodup haq.1 hmem hname
    rw [← this]
    exact haq.2
  · intro h
    exact List.mem_map.mpr ⟨e, List.mem_filter.mpr ⟨hmem, h⟩, rfl⟩

theorem sizeQualifies_iff {e : Entry} (h0 : 0 ≤ e.Size) (h63 : e.Size < 2 ^ 63) :
    sizeQualifies e = true ↔ 939524096 ≤ e.Size := by
  have h := u64_eq h0 (by omega : e.Size < 2 ^ 64)
  simp only [sizeQualifies, GB, MB, decide_eq_true_eq]
  omega

theorem sizeQualifies_at {name : GoString} {mode : FileType} (n : Nat) (h : n < 2 ^ 64) :
    sizeQualifies ⟨name, mode, (n : Int)⟩ = decide (939524096 ≤ n) := by
  have hu : u64 (n : Int) = n := by
    have := u64_eq (Int.natCast_nonneg n) (by exact_mod_cast h)
    exact_mod_cast this
  simp only [sizeQualifies, hu, GB, MB]

/-- C4: when the scan of `deleteChunk` completes, a file (a non-directory
entry) of the reserved directory, of size `0 <= Size < 2^63`, is among the
deletion candidates if and only if its size is at least
`GB - 128*MB = 2^30 - 128*2^20 = 939524096` bytes; a file of exactly
939524096 bytes passes the size test and one of 939524095 bytes does not. -/
theorem candidate_iff_size_threshold (infoErr : GoString → Bool) (entries : List Entry)
    (files : List GoString) (e : Entry)
    (hscan : scanEntries infoErr entries [] = Except.ok files)
    (hnodup : (entries.map Entry.Name).Nodup) (hmem : e ∈ entries)
    (hfile : e.IsDir = false) (h0 : 0 ≤ e.Size) (h63 : e.Size < 2 ^ 63) :
    (e.Name ∈ files ↔ 939524096 ≤ e.Size) ∧
      GB - 128 * MB = 939524096 ∧ 2 ^ 30 - 128 * 2 ^ 20 = 939524096 ∧
      sizeQualifies { e with Size := 939524096 } = true ∧
      sizeQualifies { e with Size := 939524095 } = false := by
  refine ⟨?_, by decide, by decide, ?_, ?_⟩
  · rw [mem_scan_iff hscan hnodup hmem, ← sizeQualifies_iff h0 h63]
    simp [qualifies, hfile]
  · simpa using @sizeQualifies_at e.Name e.Mode 939524096 (by norm_num)
  · simpa using @sizeQualifies_at e.Name e.Mode 939524095 (by norm_num)

/-- Witness of `candidate_iff_size_threshold`: the file `edge` of `mixedDir`,
of exactly 939524096 bytes. -/
theorem candidate_iff_size_threshold_witness :
    (ascii "edge" ∈ [ascii "edge"] ↔ (939524096 : Int) ≤ 939524096) ∧
      GB - 128 * MB = 939524096 ∧ 2 ^ 30 - 128 * 2 ^ 20 = 939524096 ∧
      sizeQualifies ⟨ascii "edge", FileType.regular, 939524096⟩ = true ∧
      sizeQualifies ⟨ascii "edge", FileType.regular, 939524095⟩ = false :=
  candidate_iff_size_threshold (fun _ => false) mixedDir [ascii "edge"]
    ⟨ascii "edge", FileType.regular, 939524096⟩ rfl (by decide) (by decide)
    (by decide) (by decide) (by decide)

/-- C5, as stated, fails: the reserved directory exists, is a directory and
holds no qualifying file (it is empty), yet when `os.ReadDir` fails
`deleteChunk` returns that error, not `nil`. -/
theorem deleteChunk_unreadable_dir_errors :
    (∀ e ∈ ([] : List Entry), qualifies e = false) ∧
      deleteChunk unreadable (Node.dir []) = (some "readdir", Node.dir []) := by
  decide

/-- C5, amended: for a reserved directory that exists, is a directory and
holds no qualifying file, when `os.Stat`, `os.ReadDir` and every
`entry.Info()` succeed, `deleteChunk` returns `nil` and the directory entries
after the call are those before the call. -/
theorem deleteChunk_no_candidate (o : DeleteOracle) (entries : List Entry)
    (hstat : o.statErr = false) (hread : o.readDirErr = false)
    (hinfo : ∀ e ∈ entries, o.infoErr e.Name = false)
    (hnone : ∀ e ∈ entries, qualifies e = false) :
    deleteChunk o (Node.dir entries) = (none, Node.dir entries) := by
  have hfilter : entries.filter qualifies = [] := by
    rw [List.filter_eq_nil_iff]
    intro e he
    simp [hnone e he]
  have hscan := scanEntries_ok o.infoErr entries [] hinfo
  rw [hfilter] at hscan
  rw [deleteChunk_scanOk o entries _ hstat hread hscan]
  simp

/-- Witness of `deleteChunk_no_candidate`: a directory with one undersized file. -/
theorem deleteChunk_no_candidate_witness :
    deleteChunk calmDelete (Node.dir smallDir) = (none, Node.dir smallDir) :=
  deleteChunk_no_candidate calmDelete smallDir rfl rfl (by decide) (by decide)

/-- C10, as stated, fails: a named pipe whose reported size is 1 GiB is not a
regular file, yet `deleteChunk` admits it to the candidate list and removes it,
because the only type test is `!info.IsDir()`. -/
theorem deleteChunk_removes_named_pipe :
    scanEntries calmDelete.infoErr pipeDir [] = Except.ok [ascii "fifo"] ∧
      deleteChunk calmDelete (Node.dir pipeDir) = (none, Node.dir []) :=
  ⟨rfl, by decide⟩

/-- C10, amended: `deleteChunk` admits an entry to the candidate list only if
it is not a directory. A directory entry is never a candidate and is never
removed, whatever size is reported for it; an entry of any other type
(regular file, symbolic link, device, socket, named pipe) is a candidate
exactly when its reported size passes the size test. -/
theorem deleteChunk_spares_directories (o : DeleteOracle) (entries : List Entry) (e : Entry)
    (hnodup : (entries.map Entry.Name).Nodup) (hmem : e ∈ entries) :
    (e.IsDir = true →
      (∀ files, scanEntries o.infoErr entries [] = Except.ok files → e.Name ∉ files) ∧
      ∃ after, (deleteChunk o (Node.dir entries)).2 = Node.dir after ∧ e ∈ after) ∧
    (e.IsDir = false →
      ∀ files, scanEntries o.infoErr entries [] = Except.ok files →
        (e.Name ∈ files ↔ sizeQualifies e = true)) := by
  constructor
  · intro hdir
    have hq : qualifies e = false := by simp [qualifies, hdir]
    refine ⟨?_, ?_⟩
    · intro files hscan hin
      rw [mem_scan_iff hscan hnodup hmem, hq] at hin
      exact Bool.false_ne_true hin
    · rcases deleteChunk_node o entries with h | ⟨hne, h⟩
      · exact ⟨entries, h, hmem⟩
      · refine ⟨_, h, ?_⟩
        unfold osRemove
        refine List.mem_filter.mpr ⟨hmem, ?_⟩
        simp only [ne_eq, decide_not, Bool.not_eq_true', decide_eq_false_iff_not]
        intro hname
        have htm := lastSorted_mem hne
        obtain ⟨a, ha, haname⟩ := List.mem_map.mp htm
        have haq := List.mem_filter.mp ha
        have : a = e := entry_of_name hnodup haq.1 hmem (haname.trans hname.symm)
        rw [this, hq] at haq
        exact Bool.false_ne_true haq.2
  · intro hfile files hscan
    rw [mem_scan_iff hscan hnodup hmem]
    simp [qualifies, hfile]

/-- Witness of `deleteChunk_spares_directories`: the subdirectory `sub` of
`mixedDir`, whose reported size is 1 GiB. -/
theorem deleteChunk_spares_directories_witness :
    ((∀ files, scanEntries calmDelete.infoErr mixedDir [] = Except.ok files →
        ascii "sub" ∉ files) ∧
      ∃ after, (deleteChunk calmDelete (Node.dir mixedDir)).2 = Node.dir after ∧
        (⟨ascii "sub", FileType.directory, 2 ^ 30⟩ : Entry) ∈ after) :=
  (deleteChunk_spares_directories calmDelete mixedDir ⟨ascii "sub", FileType.directory, 2 ^ 30⟩
    (by decide) (by decide)).1 (by decide)

theorem osRemove_eq_erase {entries : List Entry} (hnodup : (entries.map Entry.Name).Nodup)
    {victim : Entry} (hmem : victim ∈ entries) :
    osRemove victim.Name entries = entries.erase victim := by
  have hnd : entries.Nodup := List.Nodup.of_map _ hnodup
  rw [List.Nodup.erase_eq_filter hnd]
  unfold osRemove
  apply List.filter_congr
  intro e he
  by_cases h : e = victim
  · simp [h]
  · have hne : e.Name ≠ victim.Name := fun hn => h (entry_of_name hnodup he hmem hn)
    simp [h, hne]

/-- C3: for a reserved directory (with distinct entry names) that holds at
least one qualifying file, a `deleteChunk` that returns `nil` removes exactly
one entry, the qualifying file whose name is greatest in byte-wise
lexicographic order among the qualifying names (every other qualifying name
is strictly smaller), and leaves every other entry in place; on the
directory with qualifying names "1a2b", "1a2c", "0fff" the removed file is
"1a2c". -/
theorem deleteChunk_removes_greatest (o : DeleteOracle) (entries : List Entry) (node1 : Node)
    (hnodup : (entries.map Entry.Name).Nodup)
    (hq : ∃ e ∈ entries, qualifies e = true)
    (hok : deleteChunk o (Node.dir entries) = (none, node1)) :
    (∃ victim ∈ entries, qualifies victim = true ∧
      (∀ e ∈ entries, qualifies e = true → e ≠ victim →
        strLess e.Name victim.Name = true) ∧
      node1 = Node.dir (entries.erase victim) ∧
      (entries.erase victim).length + 1 = entries.length ∧
      ∀ e, e ∈ entries.erase victim ↔ (e ∈ entries ∧ e ≠ victim)) ∧
    deleteChunk calmDelete (Node.dir exampleDir) =
      (none, Node.dir [filler "1a2b", filler "0fff"]) := by
  refine ⟨?_, by decide⟩
  obtain ⟨q, hqmem, hqq⟩ := hq
  have hne : (entries.filter qualifies).map Entry.Name ≠ [] := by
    intro h
    have : q.Name ∈ (entries.filter qualifies).map Entry.Name :=
      List.mem_map.mpr ⟨q, List.mem_filter.mpr ⟨hqmem, hqq⟩, rfl⟩
    rw [h] at this
    exact List.not_mem_nil _ this
  rcases (deleteChunk_nil o entries node1 hok).2 with ⟨hnil, _⟩ | ⟨_, hnode⟩
  · exact absurd hnil hne
  · obtain ⟨victim, hv, hvname⟩ := List.mem_map.mp (lastSorted_mem hne)
    have hvq := List.mem_filter.mp hv
    have hnd : entries.Nodup := List.Nodup.of_map _ hnodup
    refine ⟨victim, hvq.1, hvq.2, ?_, ?_, ?_, ?_⟩
    · intro e he heq hev
      have hle : strLe e.Name victim.Name = true := by
        rw [hvname]
        exact lastSorted_greatest hne _ (List.mem_map.mpr ⟨e, List.mem_filter.mpr ⟨he, heq⟩, rfl⟩)
      have hnn : e.Name ≠ victim.Name := fun hn => hev (entry_of_name hnodup he hvq.1 hn)
      cases hlt : strLess e.Name victim.Name
      · exfalso
        apply hnn
        apply strLe_antisymm hle
        simp [strLe, hlt]
      · rfl
    · rw [hnode, ← hvname, osRemove_eq_erase hnodup hvq.1]
    · rw [List.length_erase_of_mem hvq.1]
      have := List.length_pos_of_mem hvq.1
      omega
    · intro e
      rw [List.Nodup.mem_erase_iff hnd]
      tauto

/-- Witness of `deleteChunk_removes_greatest` on the example directory. -/
theorem deleteChunk_removes_greatest_witness :
    (∃ victim ∈ exampleDir, qualifies victim = true ∧
      (∀ e ∈ exampleDir, qualifies e = true → e ≠ victim →
        strLess e.Name victim.Name = true) ∧
      Node.dir [filler "1a2b", filler "0fff"] = Node.dir (exampleDir.erase victim) ∧
      (exampleDir.erase victim).length + 1 = exampleDir.length ∧
      ∀ e, e ∈ exampleDir.erase victim ↔ (e ∈ exampleDir ∧ e ≠ victim)) ∧
    deleteChunk calmDelete (Node.dir exampleDir) =
      (none, Node.dir [filler "1a2b", filler "0fff"]) :=
  deleteChunk_removes_greatest calmDelete exampleDir (Node.dir [filler "1a2b", filler "0fff"])
    (by decide) ⟨filler "1a2b", by decide, by decide⟩ (by decide)

/-! ## Claims on the allocator -/

theorem writeLoop_ok (random : Bool) (o : AllocOracle) (todo x : Nat)
    (h : (writeLoop random o todo x).1 = none) :
    (writeLoop random o todo x).2 = List.replicate todo MB := by
  induction todo generalizing x with
  | zero => simp [writeLoop]
  | succ n ih =>
    unfold writeLoop at h ⊢
    by_cases hr : (random && o.randErr x) = true
    · simp [hr] at h
    · simp only [hr, if_false, Bool.false_eq_true] at h ⊢
      by_cases hw : min (o.written x) MB < MB
      · simp [hw] at h
      · simp only [hw, if_false] at h ⊢
        have hmin : min (o.written x) MB = MB := by
          have := Nat.min_le_right (o.written x) MB
          omega
        simp only [List.replicate_succ, hmin]
        rw [ih (x + 1) h]

theorem osCreate_mem (fails : Bool) (name : GoString) (entries created : List Entry)
    (h : osCreate fails name entries = some created) : ∃ e ∈ created, e.Name = name := by
  unfold osCreate at h
  cases fails
  · simp only [Bool.false_eq_true, if_false] at h
    cases hf : entries.find? (fun e => decide (e.Name = name)) with
    | none =>
      simp only [hf, Option.some.injEq] at h
      exact ⟨⟨name, FileType.regular, 0⟩, by rw [← h]; simp, rfl⟩
    | some old =>
      simp only [hf] at h
      have hold : old ∈ entries := List.mem_of_find?_eq_some hf
      have hname : old.Name = name := by simpa using List.find?_some hf
      by_cases hd : old.IsDir = true
      · simp [hd] at h
      · simp only [hd, if_false, Option.some.injEq, Bool.false_eq_true] at h
        refine ⟨{ old with Size := 0 }, ?_, hname⟩
        rw [← h]
        exact List.mem_map.mpr ⟨old, hold, by simp [hname]⟩
  · simp at h

theorem setSize_spec (name : GoString) (size : Int) (entries : List Entry) :
    (∀ e ∈ setSize name size entries, e.Name = name → e.Size = size) ∧
      ((∃ e ∈ entries, e.Name = name) → ∃ e ∈ setSize name size entries, e.Name = name) := by
  unfold setSize
  constructor
  · intro e he hname
    obtain ⟨a, _, rfl⟩ := List.mem_map.mp he
    by_cases ha : a.Name = name
    · simp [ha]
    · simp only [ha, if_false] at hname
  · rintro ⟨e, he, hname⟩
    exact ⟨{ e with Size := size }, List.mem_map.mpr ⟨e, he, by simp [hname]⟩, hname⟩

/-- C6: for both values of the random flag, whenever `allocateChunk` returns
`nil`, it has made exactly 1024 writes of `MB = 2^20` bytes each, and the file
it created in the reserved directory (the entry named after the hexadecimal
clock value) has size exactly `1024 * 2^20 = 2^30` bytes. -/
theorem allocateChunk_file_size (random : Bool) (o : AllocOracle) (node : Node)
    (hok : (allocateChunk random o node).err = none) :
    (allocateChunk random o node).writes = List.replicate 1024 (2 ^ 20) ∧
      (allocateChunk random o node).name = sprintfHex o.now ∧
      (∃ entries, (allocateChunk random o node).node = Node.dir entries ∧
        (∃ e ∈ entries, e.Name = sprintfHex o.now) ∧
        ∀ e ∈ entries, e.Name = sprintfHex o.now → e.Size = 2 ^ 30) ∧
      1024 * 2 ^ 20 = 2 ^ 30 := by
  have hsum : ((List.replicate 1024 MB).sum : Nat) = 2 ^ 30 := by
    rw [List.sum_replicate, smul_eq_mul]
    norm_num [MB]
  have hMB : MB = 2 ^ 20 := by decide
  unfold allocateChunk at hok ⊢
  cases hdir : ensureDir o node with
  | error e => simp [hdir] at hok
  | ok entries =>
    simp only [hdir] at hok ⊢
    cases hcr : osCreate o.createErr (sprintfHex o.now) entries with
    | none => simp [hcr] at hok
    | some created =>
      simp only [hcr] at hok ⊢
      cases hw : (writeLoop random o 1024 0).1 with
      | some e => simp [hw] at hok
      | none =>
        have hwrites := writeLoop_ok random o 1024 0 hw
        simp only [hw] at hok ⊢
        cases hs : o.syncErr
        · simp only [hs, Bool.false_eq_true, if_false, hwrites, hsum]
          have hspec := setSize_spec (sprintfHex o.now) ((2 ^ 30 : Nat) : Int) created
          refine ⟨by rw [hMB], trivial, ⟨_, rfl, hspec.2 (osCreate_mem _ _ _ _ hcr), ?_⟩,
            by norm_num⟩
          intro e he hname
          have := hspec.1 e he hname
          simpa using this
        · simp [hs] at hok

set_option maxRecDepth 100000 in
/-- Witness of `allocateChunk_file_size`: random mode, no failing call, the
reserved directory absent at first. -/
theorem allocateChunk_file_size_witness :
    (allocateChunk true (calmAlloc 1700000000000000000) Node.absent).writes =
        List.replicate 1024 (2 ^ 20) ∧
      (allocateChunk true (calmAlloc 1700000000000000000) Node.absent).name =
        sprintfHex (calmAlloc 1700000000000000000).now ∧
      (∃ entries, (allocateChunk true (calmAlloc 1700000000000000000) Node.absent).node =
          Node.dir entries ∧
        (∃ e ∈ entries, e.Name = sprintfHex (calmAlloc 1700000000000000000).now) ∧
        ∀ e ∈ entries, e.Name = sprintfHex (calmAlloc 1700000000000000000).now →
          e.Size = 2 ^ 30) ∧
      1024 * 2 ^ 20 = 2 ^ 30 :=
  allocateChunk_file_size true (calmAlloc 1700000000000000000) Node.absent (by decide)

/-! ## The loops of main -/

theorem loop_zero (kind : Op) (op : Nat → Node → Option String × Node) (since : Nat → Int)
    (x : Nat) (node : Node) : loop kind op since 0 x node = ⟨[], ExitStatus.success, node⟩ := rfl

theorem loop_err (kind : Op) (op : Nat → Node → Option String × Node) (since : Nat → Int)
    (todo x : Nat) (node node1 : Node) (e : String) (h : op x node = (some e, node1)) :
    loop kind op since (todo + 1) x node = ⟨[⟨kind, some e, none⟩], ExitStatus.fatal, node1⟩ := by
  simp only [loop, h]

theorem loop_slow (kind : Op) (op : Nat → Node → Option String × Node) (since : Nat → Int)
    (todo x : Nat) (node node1 : Node) (h : op x node = (none, node1))
    (hs : since x > 10 * Minute) :
    loop kind op since (todo + 1) x node =
      ⟨[⟨kind, none, some (since x)⟩], ExitStatus.success, node1⟩ := by
  simp only [loop, h, hs, if_true]

theorem loop_next (kind : Op) (op : Nat → Node → Option String × Node) (since : Nat → Int)
    (todo x : Nat) (node node1 : Node) (h : op x node = (none, node1))
    (hs : ¬ since x > 10 * Minute) :
    loop kind op since (todo + 1) x node =
      ⟨⟨kind, none, some (since x)⟩ :: (loop kind op since todo (x + 1) node1).events,
        (loop kind op since todo (x + 1) node1).exit,
        (loop kind op since todo (x + 1) node1).node⟩ := by
  simp only [loop, h, hs, if_false]

/-- The three ways one iteration can go. -/
theorem loop_cases (kind : Op) (op : Nat → Node → Option String × Node) (since : Nat → Int)
    (todo x : Nat) (node : Node) :
    (∃ e, loop kind op since (todo + 1) x node =
        ⟨[⟨kind, some e, none⟩], ExitStatus.fatal, (op x node).2⟩) ∨
      (since x > 10 * Minute ∧ loop kind op since (todo + 1) x node =
        ⟨[⟨kind, none, some (since x)⟩], ExitStatus.success, (op x node).2⟩) ∨
      (¬ since x > 10 * Minute ∧ loop kind op since (todo + 1) x node =
        ⟨⟨kind, none, some (since x)⟩ :: (loop kind op since todo (x + 1) (op x node).2).events,
          (loop kind op since todo (x + 1) (op x node).2).exit,
          (loop kind op since todo (x + 1) (op x node).2).node⟩) := by
  rcases h : op x node with ⟨err, node1⟩
  cases err with
  | some e => exact Or.inl ⟨e, loop_err kind op since todo x node node1 e h⟩
  | none =>
    by_cases hs : since x > 10 * Minute
    · exact Or.inr (Or.inl ⟨hs, loop_slow kind op since todo x node node1 h hs⟩)
    · exact Or.inr (Or.inr ⟨hs, loop_next kind op since todo x node node1 h hs⟩)

theorem loop_kind (kind : Op) (op : Nat → Node → Option String × Node) (since : Nat → Int)
    (todo x : Nat) (node : Node) :
    ∀ ev ∈ (loop kind op since todo x node).events, ev.op = kind := by
  induction todo generalizing x node with
  | zero => simp [loop_zero]
  | succ n ih =>
    rcases loop_cases kind op since n x node with ⟨e, h⟩ | ⟨_, h⟩ | ⟨_, h⟩
    · rw [h]; simp
    · rw [h]; simp
    · rw [h]
      intro ev hev
      rcases List.mem_cons.mp hev with rfl | hev
      · rfl
      · exact ih _ _ ev hev

/-- An iteration whose operation returned an error is the last one, and the
run is fatal; every earlier iteration returned no error. -/
theorem loop_error_last (kind : Op) (op : Nat → Node → Option String × Node)
    (since : Nat → Int) (todo x : Nat) (node : Node) (i : Nat) (ev : Event)
    (hev : (loop kind op since todo x node).events[i]? = some ev) (herr : ev.err ≠ none) :
    (loop kind op since todo x node).exit = ExitStatus.fatal ∧
      (loop kind op since todo x node).events.length = i + 1 ∧
      ∀ j < i, ∀ ev1, (loop kind op since todo x node).events[j]? = some ev1 →
        ev1.err = none := by
  induction todo generalizing x node i with
  | zero => simp [loop_zero] at hev
  | succ n ih =>
    rcases loop_cases kind op since n x node with ⟨e, h⟩ | ⟨_, h⟩ | ⟨_, h⟩
    · rw [h] at hev ⊢
      cases i with
      | zero => simp
      | succ i => simp at hev
    · rw [h] at hev
      cases i with
      | zero =>
        simp only [List.getElem?_cons_zero, Option.some.injEq] at hev
        rw [← hev] at herr
        exact absurd rfl herr
      | succ i => simp at hev
    · rw [h] at hev ⊢
      cases i with
      | zero =>
        simp only [List.getElem?_cons_zero, Option.some.injEq] at hev
        rw [← hev] at herr
        exact absurd rfl herr
      | succ i =>
        simp only [List.getElem?_cons_succ] at hev
        obtain ⟨h1, h2, h3⟩ := ih _ _ i hev
        refine ⟨h1, by simp [h2], ?_⟩
        intro j hj ev1 hev1
        cases j with
        | zero =>
          simp only [List.getElem?_cons_zero, Option.some.injEq] at hev1
          rw [← hev1]
        | succ j =>
          simp only [List.getElem?_cons_succ] at hev1
          exact h3 j (by omega) ev1 hev1

/-- An iteration measured above ten minutes is the last one; the run ends
with status 0 after it, no operation failed, and the state is that left by
the operations performed. -/
theorem loop_slow_last (kind : Op) (op : Nat → Node → Option String × Node)
    (since : Nat → Int) (todo x : Nat) (node : Node) (i : Nat) (ev : Event) (d : Int)
    (hev : (loop kind op since todo x node).events[i]? = some ev) (hd : ev.since = some d)
    (hslow : d > 10 * Minute) :
    (loop kind op since todo x node).exit = ExitStatus.success ∧
      (loop kind op since todo x node).events.length = i + 1 ∧
      (loop kind op since todo x node).node = effects op (i + 1) x node ∧
      (∀ ev1 ∈ (loop kind op since todo x node).events, ev1.err = none) ∧
      ∀ j < i, ∀ ev1 d1, (loop kind op since todo x node).events[j]? = some ev1 →
        ev1.since = some d1 → d1 ≤ 10 * Minute := by
  induction todo generalizing x node i with
  | zero => simp [loop_zero] at hev
  | succ n ih =>
    rcases loop_cases kind op since n x node with ⟨e, h⟩ | ⟨hs, h⟩ | ⟨hs, h⟩
    · rw [h] at hev
      cases i with
      | zero =>
        simp only [List.getElem?_cons_zero, Option.some.injEq] at hev
        rw [← hev] at hd
        simp at hd
      | succ i => simp at hev
    · rw [h] at hev ⊢
      cases i with
      | zero => simp [effects]
      | succ i => simp at hev
    · rw [h] at hev ⊢
      cases i with
      | zero =>
        simp only [List.getElem?_cons_zero, Option.some.injEq] at hev
        rw [← hev] at hd
        simp only [Option.some.injEq] at hd
        rw [hd] at hs
        exact absurd hslow hs
      | succ i =>
        simp only [List.getElem?_cons_succ] at hev
        obtain ⟨h1, h2, h3, h4, h5⟩ := ih _ _ i hev
        refine ⟨h1, by simp [h2], ?_, ?_, ?_⟩
        · show _ = effects op (i + 1 + 1) x node
          rw [effects]
          exact h3
        · intro ev1 hev1
          rcases List.mem_cons.mp hev1 with rfl | hev1
          · rfl
          · exact h4 ev1 hev1
        · intro j hj ev1 d1 hev1 hd1
          cases j with
          | zero =>
            simp only [List.getElem?_cons_zero, Option.some.injEq] at hev1
            rw [← hev1] at hd1
            simp only [Option.some.injEq] at hd1
            rw [← hd1]
            exact not_lt.mp hs
          | succ j =>
            simp only [List.getElem?_cons_succ] at hev1
            exact h5 j (by omega) ev1 d1 hev1 hd1

/-- An iteration measured at ten minutes or less is followed by the next
one whenever iterations remain. -/
theorem loop_continues (kind : Op) (op : Nat → Node → Option String × Node)
    (since : Nat → Int) (todo x : Nat) (node : Node) (i : Nat) (ev : Event) (d : Int)
    (hev : (loop kind op since todo x node).events[i]? = some ev) (hd : ev.since = some d)
    (hle : d ≤ 10 * Minute) (hmore : i + 1 < todo) :
    i + 1 < (loop kind op since todo x node).events.length := by
  induction todo generalizing x node i with
  | zero => omega
  | succ n ih =>
    rcases loop_cases kind op since n x node with ⟨e, h⟩ | ⟨hs, h⟩ | ⟨hs, h⟩
    · rw [h] at hev
      cases i with
      | zero =>
        simp only [List.getElem?_cons_zero, Option.some.injEq] at hev
        rw [← hev] at hd
        simp at hd
      | succ i => simp at hev
    · rw [h] at hev
      cases i with
      | zero =>
        simp only [List.getElem?_cons_zero, Option.some.injEq] at hev
        rw [← hev] at hd
        simp only [Option.some.injEq] at hd
        rw [hd] at hs
        exact absurd hs (not_lt.mpr hle)
      | succ i => simp at hev
    · rw [h] at hev ⊢
      cases i with
      | zero =>
        simp only [List.length_cons]
        cases n with
        | zero => omega
        | succ m =>
          rcases loop_cases kind op since m (x + 1) (op x node).2 with ⟨e, h2⟩ | ⟨_, h2⟩ | ⟨_, h2⟩ <;>
            rw [h2] <;> simp
      | succ i =>
        simp only [List.getElem?_cons_succ] at hev
        have := ih _ _ i hev (by omega)
        simp only [List.length_cons]
        omega

/-- A run in which no operation failed and no iteration exceeded ten
minutes performs every planned iteration. -/
theorem loop_complete (kind : Op) (op : Nat → Node → Option String × Node)
    (since : Nat → Int) (todo x : Nat) (node : Node)
    (hclean : ∀ ev ∈ (loop kind op since todo x node).events,
      ev.err = none ∧ ∀ d, ev.since = some d → d ≤ 10 * Minute) :
    (loop kind op since todo x node).events.length = todo ∧
      (loop kind op since todo x node).exit = ExitStatus.success ∧
      (loop kind op since todo x node).node = effects op todo x node := by
  induction todo generalizing x node with
  | zero => simp [loop_zero, effects]
  | succ n ih =>
    rcases loop_cases kind op since n x node with ⟨e, h⟩ | ⟨hs, h⟩ | ⟨hs, h⟩
    · rw [h] at hclean
      have := (hclean _ (List.mem_singleton.mpr rfl)).1
      simp at this
    · rw [h] at hclean
      have := (hclean _ (List.mem_singleton.mpr rfl)).2 (since x) rfl
      exact absurd hs (not_lt.mpr this)
    · rw [h] at hclean ⊢
      have hrest := ih (x + 1) (op x node).2
        (fun ev hev => hclean ev (List.mem_cons_of_mem _ hev))
      refine ⟨by simp [hrest.1], hrest.2.1, ?_⟩
      show _ = effects op (n + 1) x node
      rw [effects]
      exact hrest.2.2

theorem loop_pos_events (kind : Op) (op : Nat → Node → Option String × Node)
    (since : Nat → Int) (todo x : Nat) (node : Node) :
    (loop kind op since (todo + 1) x node).events ≠ [] := by
  rcases loop_cases kind op since todo x node with ⟨e, h⟩ | ⟨_, h⟩ | ⟨_, h⟩ <;> rw [h] <;> simp

/-- A run of `main` is either ended by a failing `syscall.Statfs` or is a run
of one of the two loops. -/
theorem main_cases (statfs : Node → Option Statfs_t) (size : Int) (random : Bool) (env : Env)
    (node : Node) :
    main statfs size random env node = ⟨[], ExitStatus.fatal, node⟩ ∨
      ∃ kind todo, main statfs size random env node =
        loop kind (unitOp random env kind) env.since todo 0 node := by
  unfold main
  cases hst : getDiskSize (statfs node) with
  | none => exact Or.inl rfl
  | some diskUsed =>
    right
    simp only
    split_ifs
    · exact ⟨Op.allocate, _, rfl⟩
    · exact ⟨Op.delete, _, rfl⟩
    · exact ⟨Op.delete, 0, rfl⟩

/-! ## Claims on the convergence controller -/

/-- C8: in every run of `main`, if iteration `k` is one in which
`allocateChunk` or `deleteChunk` returns an error, then the process
terminates fatally (non-zero exit status), exactly `k` operations have been
attempted (none after iteration `k`), and no earlier iteration returned an
error (iteration `k` is the first one). -/
theorem main_fatal_on_error (statfs : Node → Option Statfs_t) (size : Int) (random : Bool)
    (env : Env) (node : Node) (k : Nat) (ev : Event) (hk : 1 ≤ k)
    (hev : (main statfs size random env node).events[k - 1]? = some ev)
    (herr : ev.err ≠ none) :
    (main statfs size random env node).exit = ExitStatus.fatal ∧
      (main statfs size random env node).events.length = k ∧
      ∀ j < k - 1, ∀ ev1, (main statfs size random env node).events[j]? = some ev1 →
        ev1.err = none := by
  rcases main_cases statfs size random env node with h | ⟨kind, todo, h⟩
  · rw [h] at hev
    simp at hev
  · rw [h] at hev ⊢
    obtain ⟨h1, h2, h3⟩ := loop_error_last kind _ env.since todo 0 node (k - 1) ev hev herr
    exact ⟨h1, by omega, h3⟩

/-- Witness of `main_fatal_on_error`: shrinking from 2 GiB to 0 over the example
directory, the second `deleteChunk` fails. -/
theorem main_fatal_on_error_witness :
    (main (fun _ => some twoGiBVolume) 0 false failSecondEnv (Node.dir exampleDir)).exit =
        ExitStatus.fatal ∧
      (main (fun _ => some twoGiBVolume) 0 false failSecondEnv
        (Node.dir exampleDir)).events.length = 2 ∧
      ∀ j < 2 - 1, ∀ ev1,
        (main (fun _ => some twoGiBVolume) 0 false failSecondEnv
          (Node.dir exampleDir)).events[j]? = some ev1 → ev1.err = none :=
  main_fatal_on_error (fun _ => some twoGiBVolume) 0 false failSecondEnv (Node.dir exampleDir) 2
    ⟨Op.delete, some "readdir", none⟩ (by decide) (by decide) (by decide)

/-- C2: in every run of `main`, if iteration `k` is one whose measured
duration is greater than 10 minutes, then exactly `k` iterations are executed
(none after `k`), the run ends with exit status 0, all iterations called the
same operation without error and the state is the one their effects leave,
and no earlier iteration was measured above 10 minutes; moreover in either
loop an iteration lasting exactly 10 minutes is followed by the next
iteration whenever one remains. -/
theorem main_stops_when_slow (statfs : Node → Option Statfs_t) (size : Int) (random : Bool)
    (env : Env) (node : Node) (k : Nat) (ev : Event) (d : Int) (hk : 1 ≤ k)
    (hev : (main statfs size random env node).events[k - 1]? = some ev)
    (hd : ev.since = some d) (hslow : d > 10 * Minute) :
    (main statfs size random env node).events.length = k ∧
      (main statfs size random env node).exit = ExitStatus.success ∧
      (∃ kind, (main statfs size random env node).node =
          effects (unitOp random env kind) k 0 node ∧
        ∀ ev1 ∈ (main statfs size random env node).events, ev1.op = kind ∧ ev1.err = none) ∧
      (∀ j < k - 1, ∀ ev1 d1, (main statfs size random env node).events[j]? = some ev1 →
        ev1.since = some d1 → d1 ≤ 10 * Minute) ∧
      ∀ kind todo i ev1,
        (loop kind (unitOp random env kind) env.since todo 0 node).events[i]? = some ev1 →
        ev1.since = some (10 * Minute) → i + 1 < todo →
        i + 1 < (loop kind (unitOp random env kind) env.since todo 0 node).events.length := by
  refine ⟨?_, ?_, ?_, ?_, ?_⟩
  all_goals
    rcases main_cases statfs size random env node with h | ⟨kind, todo, h⟩
  iterate 4
    · rw [h] at hev
      simp at hev
    · rw [h] at hev ⊢
      obtain ⟨h1, h2, h3, h4, h5⟩ :=
        loop_slow_last kind _ env.since todo 0 node (k - 1) ev d hev hd hslow
      first
        | exact h1
        | omega
        | exact h5
        | refine ⟨kind, ?_, fun ev1 hev1 => ⟨loop_kind kind _ env.since todo 0 node ev1 hev1,
            h4 ev1 hev1⟩⟩
          rw [h3]
          congr 1
          omega
  all_goals
    intro kind1 todo1 i ev1 hev1 hd1 hmore
    exact loop_continues kind1 _ env.since todo1 0 node i ev1 _ hev1 hd1 (le_refl _) hmore

/-- Witness of `main_stops_when_slow`: shrinking from 2 GiB to 0 over the example
directory, the first delete takes exactly ten minutes and the second longer. -/
theorem main_stops_when_slow_witness :
    (main (fun _ => some twoGiBVolume) (-1) false slowSecondEnv
        (Node.dir exampleDir)).events.length = 2 ∧
      (main (fun _ => some twoGiBVolume) (-1) false slowSecondEnv
        (Node.dir exampleDir)).exit = ExitStatus.success :=
  have h := main_stops_when_slow (fun _ => some twoGiBVolume) (-1) false slowSecondEnv
    (Node.dir exampleDir) 2 ⟨Op.delete, none, some 600000000001⟩ 600000000001 (by decide)
    (by decide) rfl (by decide)
  ⟨h.1, h.2.1⟩

theorem calls_of_kind (kind kind1 : Op) (r : Run) (h : ∀ ev ∈ r.events, ev.op = kind1) :
    calls kind r = if kind1 = kind then r.events.length else 0 := by
  unfold calls
  by_cases hk : kind1 = kind
  · rw [if_pos hk, List.countP_eq_length]
    intro ev hev
    simp [h ev hev, hk]
  · rw [if_neg hk, List.countP_eq_zero]
    intro ev hev
    simp [h ev hev, hk]

theorem main_of_usage (statfs : Node → Option Statfs_t) (size : Int) (random : Bool) (env : Env)
    (node : Node) (st : Statfs_t) (hstat : statfs node = some st) (hhi : size < 2 ^ 63)
    (hno : -2 ^ 63 < size - (usedGB st : Int)) :
    main statfs size random env node =
      if size - (usedGB st : Int) > 0 then
        loop Op.allocate (unitOp random env Op.allocate) env.since
          (size - (usedGB st : Int)).toNat 0 node
      else if size - (usedGB st : Int) < 0 then
        loop Op.delete (unitOp random env Op.delete) env.since
          ((usedGB st : Int) - size).toNat 0 node
      else ⟨[], ExitStatus.success, node⟩ := by
  have hu := usedGB_lt st
  have hu0 : (0 : Int) ≤ (usedGB st : Int) := Int.natCast_nonneg _
  have hu1 : ((usedGB st : Nat) : Int) < 2 ^ 34 := by exact_mod_cast hu
  have h1 : i64 ((usedGB st : Nat) : Int) = (usedGB st : Int) := i64_eq (by omega) (by omega)
  have h2 : i64 (size - (usedGB st : Int)) = size - (usedGB st : Int) :=
    i64_eq (by omega) (by omega)
  have h3 : i64 ((size - (usedGB st : Int)) * -1) = (usedGB st : Int) - size := by
    rw [i64_eq (by omega) (by omega)]
    ring
  unfold main
  simp only [hstat, getDiskSize, h1, h2, h3]

/-- C1, as stated, fails: with `--size` equal to the least `int` (-2^63) on a
volume whose usage is 0 GB, D < U and U - D = 2^63, yet `newChunks * -1`
wraps back to -2^63 and `main` calls `deleteChunk` (and `allocateChunk`) zero
times, ending normally. -/
theorem main_no_delete_at_min_int :
    getDiskSize (some emptyVolume) = some 0 ∧ (-2 ^ 63 : Int) < 0 ∧
      ((0 : Int) - (-2 ^ 63)).toNat = 2 ^ 63 ∧
      (main (fun _ => some emptyVolume) (-2 ^ 63) false calmEnv (Node.dir exampleDir)) =
        ⟨[], ExitStatus.success, Node.dir exampleDir⟩ ∧
      calls Op.delete
        (main (fun _ => some emptyVolume) (-2 ^ 63) false calmEnv (Node.dir exampleDir)) = 0 := by
  decide

/-- C1, amended: for every `int` target D and every usage U returned by
`getDiskSize` with D - U > -2^63 (so that neither the subtraction nor the
negation wraps), when no iteration fails and no iteration exceeds the time
budget, `main` calls `allocateChunk` exactly D-U times and `deleteChunk`
zero times if D > U, calls `deleteChunk` exactly U-D times and
`allocateChunk` zero times if D < U, and calls neither if D = U. -/
theorem main_call_counts (statfs : Node → Option Statfs_t) (size : Int) (random : Bool)
    (env : Env) (node : Node) (st : Statfs_t) (hstat : statfs node = some st)
    (hhi : size < 2 ^ 63) (hno : -2 ^ 63 < size - (usedGB st : Int))
    (hclean : ∀ ev ∈ (main statfs size random env node).events,
      ev.err = none ∧ ∀ d, ev.since = some d → d ≤ 10 * Minute) :
    getDiskSize (statfs node) = some (usedGB st) ∧
      (size > (usedGB st : Int) →
        calls Op.allocate (main statfs size random env node) = (size - (usedGB st : Int)).toNat ∧
        calls Op.delete (main statfs size random env node) = 0) ∧
      (size < (usedGB st : Int) →
        calls Op.delete (main statfs size random env node) = ((usedGB st : Int) - size).toNat ∧
        calls Op.allocate (main statfs size random env node) = 0) ∧
      (size = (usedGB st : Int) →
        calls Op.allocate (main statfs size random env node) = 0 ∧
        calls Op.delete (main statfs size random env node) = 0) := by
  have hmain := main_of_usage statfs size random env node st hstat hhi hno
  refine ⟨by rw [hstat]; rfl, ?_, ?_, ?_⟩
  · intro hgt
    rw [if_pos (by omega)] at hmain
    rw [hmain] at hclean ⊢
    have hlen := (loop_complete _ _ _ _ _ _ hclean).1
    have hk := loop_kind Op.allocate (unitOp random env Op.allocate) env.since
      (size - (usedGB st : Int)).toNat 0 node
    rw [calls_of_kind Op.allocate Op.allocate _ hk, calls_of_kind Op.delete Op.allocate _ hk]
    exact ⟨by rw [if_pos rfl]; exact hlen, by rw [if_neg (by decide)]⟩
  · intro hlt
    rw [if_neg (by omega), if_pos (by omega)] at hmain
    rw [hmain] at hclean ⊢
    have hlen := (loop_complete _ _ _ _ _ _ hclean).1
    have hk := loop_kind Op.delete (unitOp random env Op.delete) env.since
      ((usedGB st : Int) - size).toNat 0 node
    rw [calls_of_kind Op.delete Op.delete _ hk, calls_of_kind Op.allocate Op.delete _ hk]
    exact ⟨by rw [if_pos rfl]; exact hlen, by rw [if_neg (by decide)]⟩
  · intro heq
    rw [if_neg (by omega), if_neg (by omega)] at hmain
    rw [hmain]
    simp [calls]

/-- Witness of `main_call_counts`: shrinking from 2 GiB to 0 over the example
directory with nothing failing. -/
theorem main_call_counts_witness :
    getDiskSize ((fun _ => some twoGiBVolume) (Node.dir exampleDir)) =
        some (usedGB twoGiBVolume) ∧
      calls Op.delete (main (fun _ => some twoGiBVolume) 0 false calmEnv (Node.dir exampleDir)) =
        ((usedGB twoGiBVolume : Int) - 0).toNat ∧
      calls Op.allocate
        (main (fun _ => some twoGiBVolume) 0 false calmEnv (Node.dir exampleDir)) = 0 :=
  have h := main_call_counts (fun _ => some twoGiBVolume) 0 false calmEnv (Node.dir exampleDir)
    twoGiBVolume rfl (by decide) (by decide) (by decide)
  ⟨h.1, (h.2.2.1 (by decide)).1, (h.2.2.1 (by decide)).2⟩

/-! ## Convergence -/

theorem usedGB_blocks (blocks free : Nat) (hfree : free ≤ blocks) (hblocks : blocks < 2 ^ 52) :
    usedGB ⟨blocks, free, 4096⟩ = (blocks - free) / 2 ^ 18 := by
  rw [usedGB_eq]
  have h0 : (0 : Int) ≤ (blocks : Int) * 4096 - (free : Int) * 4096 := by omega
  have h1 : (blocks : Int) * 4096 - (free : Int) * 4096 < 2 ^ 64 := by omega
  have h := u64_eq h0 h1
  have h2 : u64 ((blocks : Int) * 4096 - (free : Int) * 4096) = (blocks - free) * 4096 := by
    zify [hfree]
    rw [h]
    ring
  simp only [h2, GB]
  omega

theorem getDiskSize_unitVolume (blocks other : Nat) (node : Node) (hblocks : blocks < 2 ^ 52) :
    getDiskSize (unitVolume blocks other node) =
      some (min (other + 2 ^ 18 * (dirEntries node).length) blocks / 2 ^ 18) := by
  unfold unitVolume getDiskSize
  simp only
  rw [usedGB_blocks _ _ (Nat.sub_le _ _) hblocks]
  congr 2
  omega

theorem ensureDir_ok (o : AllocOracle) (node : Node) (entries : List Entry)
    (h : ensureDir o node = Except.ok entries) : entries = dirEntries node := by
  cases node with
  | absent =>
    cases hm : o.mkdirErr <;> simp [ensureDir, osStat, hm] at h
    simp [dirEntries, h]
  | notDir => cases hs : o.statErr <;> simp [ensureDir, osStat, hs] at h
  | dir es =>
    cases hs : o.statErr <;> simp [ensureDir, osStat, hs] at h
    simp [dirEntries, h]

theorem setSize_names (name : GoString) (size : Int) (entries : List Entry) :
    (setSize name size entries).map Entry.Name = entries.map Entry.Name := by
  unfold setSize
  rw [List.map_map]
  apply List.map_congr_left
  intro e _
  simp only [Function.comp]
  split_ifs <;> rfl

theorem osCreate_fresh (fails : Bool) (name : GoString) (entries created : List Entry)
    (hfresh : name ∉ entries.map Entry.Name)
    (h : osCreate fails name entries = some created) :
    created.map Entry.Name = entries.map Entry.Name ++ [name] := by
  have hf : entries.find? (fun e => decide (e.Name = name)) = none := by
    rw [List.find?_eq_none]
    intro e he hn
    exact hfresh (List.mem_map.mpr ⟨e, he, by simpa using hn⟩)
  unfold osCreate at h
  cases fails
  · simp only [Bool.false_eq_true, if_false, hf, Option.some.injEq] at h
    rw [← h]
    simp
  · simp at h

/-- An `allocateChunk` that returns `nil` under a file name not yet in the
reserved directory adds exactly one entry, of that name. -/
theorem allocateChunk_names (random : Bool) (o : AllocOracle) (node : Node)
    (hok : (allocateChunk random o node).err = none)
    (hfresh : sprintfHex o.now ∉ (dirEntries node).map Entry.Name) :
    (dirEntries (allocateChunk random o node).node).map Entry.Name =
      (dirEntries node).map Entry.Name ++ [sprintfHex o.now] := by
  unfold allocateChunk at hok ⊢
  cases hdir : ensureDir o node with
  | error e => simp [hdir] at hok
  | ok entries =>
    have hent := ensureDir_ok o node entries hdir
    simp only [hdir] at hok ⊢
    cases hcr : osCreate o.createErr (sprintfHex o.now) entries with
    | none => simp [hcr] at hok
    | some created =>
      have hnames := osCreate_fresh _ _ _ _ (by rw [hent]; exact hfresh) hcr
      simp only [hcr] at hok ⊢
      cases hw : (writeLoop random o 1024 0).1 with
      | some e => simp [hw] at hok
      | none =>
        simp only [hw] at hok ⊢
        cases hs : o.syncErr
        · simp only [hs, Bool.false_eq_true, if_false, dirEntries, setSize_names, hnames, hent]
        · simp [hs] at hok

/-- A `deleteChunk` that returns `nil` removes one qualifying entry when
there is one, and nothing otherwise. -/
theorem deleteChunk_count (o : DeleteOracle) (node : Node)
    (hok : (deleteChunk o node).1 = none)
    (hnodup : ((dirEntries node).map Entry.Name).Nodup) :
    ((dirEntries (deleteChunk o node).2).map Entry.Name).Nodup ∧
      (dirEntries (deleteChunk o node).2).length +
          min 1 ((dirEntries node).filter qualifies).length = (dirEntries node).length ∧
      ((dirEntries (deleteChunk o node).2).filter qualifies).length +
          min 1 ((dirEntries node).filter qualifies).length =
        ((dirEntries node).filter qualifies).length := by
  cases node with
  | absent => simp [deleteChunk, osStat] at hok
  | notDir => cases hs : o.statErr <;> simp [deleteChunk, osStat, hs] at hok
  | dir entries =>
    have hpair : deleteChunk o (Node.dir entries) = (none, (deleteChunk o (Node.dir entries)).2) :=
      Prod.ext hok rfl
    rcases (deleteChunk_nil o entries _ hpair).2 with ⟨hnil, hnode⟩ | ⟨hne, hnode⟩
    · rw [hnode]
      have hq : entries.filter qualifies = [] := by simpa using hnil
      simp only [dirEntries] at hnodup ⊢
      simp [hq, hnodup]
    · rw [hnode]
      simp only [dirEntries] at hnodup ⊢
      have hmem := lastSorted_mem hne
      obtain ⟨victim, hv, hname⟩ := List.mem_map.mp hmem
      have hvq := List.mem_filter.mp hv
      rw [← hname, osRemove_eq_erase hnodup hvq.1]
      have hpos : 0 < (entries.filter qualifies).length := List.length_pos_of_mem hv
      have hlen := List.length_erase_of_mem hvq.1
      have hlen0 : 0 < entries.length := List.length_pos_of_mem hvq.1
      have hflen : ((entries.erase victim).filter qualifies).length =
          (entries.filter qualifies).length - 1 := by
        rw [← List.erase_filter, List.length_erase_of_mem hv]
      refine ⟨?_, ?_, ?_⟩
      · exact List.Nodup.sublist ((List.erase_sublist victim entries).map Entry.Name) hnodup
      · rw [hlen]
        omega
      · rw [hflen]
        omega

/-- In a run in which no operation failed and no iteration exceeded ten
minutes, the first operation returned `nil` and the rest of the run is such
a run from the state it left. -/
theorem loop_clean_step (kind : Op) (op : Nat → Node → Option String × Node)
    (since : Nat → Int) (todo x : Nat) (node : Node)
    (hclean : ∀ ev ∈ (loop kind op since (todo + 1) x node).events,
      ev.err = none ∧ ∀ d, ev.since = some d → d ≤ 10 * Minute) :
    (op x node).1 = none ∧
      (∀ ev ∈ (loop kind op since todo (x + 1) (op x node).2).events,
        ev.err = none ∧ ∀ d, ev.since = some d → d ≤ 10 * Minute) ∧
      (loop kind op since (todo + 1) x node).node =
        (loop kind op since todo (x + 1) (op x node).2).node := by
  rcases h : op x node with ⟨err, node1⟩
  cases err with
  | some e =>
    rw [loop_err kind op since todo x node node1 e h] at hclean
    have := (hclean _ (List.mem_singleton.mpr rfl)).1
    simp at this
  | none =>
    by_cases hs : since x > 10 * Minute
    · rw [loop_slow kind op since todo x node node1 h hs] at hclean
      have := (hclean _ (List.mem_singleton.mpr rfl)).2 (since x) rfl
      exact absurd hs (not_lt.mpr this)
    · rw [loop_next kind op since todo x node node1 h hs] at hclean ⊢
      exact ⟨rfl, fun ev hev => hclean ev (List.mem_cons_of_mem _ hev), rfl⟩

/-- A complete run of the allocate loop under new file names adds one entry
per iteration. -/
theorem loop_allocate_names (random : Bool) (env : Env) (todo x : Nat) (node : Node)
    (hclean : ∀ ev ∈ (loop Op.allocate (unitOp random env Op.allocate) env.since todo x
        node).events, ev.err = none ∧ ∀ d, ev.since = some d → d ≤ 10 * Minute)
    (hfresh : ((dirEntries node).map Entry.Name ++
      (List.range' x todo).map (fun i => sprintfHex (env.allocOracle i).now)).Nodup) :
    (dirEntries (loop Op.allocate (unitOp random env Op.allocate) env.since todo x
        node).node).length = (dirEntries node).length + todo := by
  induction todo generalizing x node with
  | zero => simp [loop_zero]
  | succ n ih =>
    obtain ⟨hok, hrest, hnode⟩ := loop_clean_step _ _ _ _ _ _ hclean
    rw [hnode]
    have hok1 : (allocateChunk random (env.allocOracle x) node).err = none := hok
    have hnode1 : (unitOp random env Op.allocate x node).2 =
        (allocateChunk random (env.allocOracle x) node).node := rfl
    rw [List.range'_succ, List.map_cons, List.nodup_middle, List.nodup_cons] at hfresh
    have hnew : sprintfHex (env.allocOracle x).now ∉ (dirEntries node).map Entry.Name :=
      fun hm => hfresh.1 (List.mem_append_left _ hm)
    have hnames := allocateChunk_names random (env.allocOracle x) node hok1 hnew
    have hfresh1 : ((dirEntries (unitOp random env Op.allocate x node).2).map Entry.Name ++
        (List.range' (x + 1) n).map (fun i => sprintfHex (env.allocOracle i).now)).Nodup := by
      rw [hnode1, hnames, List.append_assoc, List.singleton_append, List.nodup_middle,
        List.nodup_cons]
      exact hfresh
    rw [ih (x + 1) _ hrest hfresh1, hnode1]
    have hlen := congrArg List.length hnames
    simp only [List.length_map, List.length_append, List.length_singleton] at hlen
    omega

/-- A complete run of the delete loop removes one qualifying entry per
iteration for as long as there is one. -/
theorem loop_delete_count (random : Bool) (env : Env) (todo x : Nat) (node : Node)
    (hclean : ∀ ev ∈ (loop Op.delete (unitOp random env Op.delete) env.since todo x
        node).events, ev.err = none ∧ ∀ d, ev.since = some d → d ≤ 10 * Minute)
    (hnodup : ((dirEntries node).map Entry.Name).Nodup) :
    (dirEntries (loop Op.delete (unitOp random env Op.delete) env.since todo x
        node).node).length + min todo ((dirEntries node).filter qualifies).length =
      (dirEntries node).length := by
  induction todo generalizing x node with
  | zero => simp [loop_zero]
  | succ n ih =>
    obtain ⟨hok, hrest, hnode⟩ := loop_clean_step _ _ _ _ _ _ hclean
    rw [hnode]
    have hok1 : (deleteChunk (env.deleteOracle x) node).1 = none := hok
    have hnode1 : (unitOp random env Op.delete x node).2 =
        (deleteChunk (env.deleteOracle x) node).2 := rfl
    obtain ⟨hnd, hlen, hq⟩ := deleteChunk_count (env.deleteOracle x) node hok1 hnodup
    have h := ih (x + 1) _ hrest (by rw [hnode1]; exact hnd)
    rw [hnode1] at h ⊢
    omega

/-- The run of `main` on a unit volume, by the usage `getDiskSize` returns. -/
theorem main_on_unitVolume (blocks other : Nat) (size : Int) (random : Bool) (env : Env)
    (node : Node) (U : Nat) (hU : getDiskSize (unitVolume blocks other node) = some U)
    (hhi : size < 2 ^ 63) (hno : -2 ^ 63 < size - (U : Int)) :
    main (unitVolume blocks other) size random env node =
      if size - (U : Int) > 0 then
        loop Op.allocate (unitOp random env Op.allocate) env.since (size - (U : Int)).toNat 0 node
      else if size - (U : Int) < 0 then
        loop Op.delete (unitOp random env Op.delete) env.since ((U : Int) - size).toNat 0 node
      else ⟨[], ExitStatus.success, node⟩ := by
  have hst : usedGB ⟨blocks, blocks - (other + 2 ^ 18 * (dirEntries node).length), 4096⟩ = U :=
    Option.some.inj hU
  have h := main_of_usage (unitVolume blocks other) size random env node
    ⟨blocks, blocks - (other + 2 ^ 18 * (dirEntries node).length), 4096⟩ rfl hhi
    (by rw [hst]; exact hno)
  rw [hst] at h
  exact h

/-- A run of `main` that finds usage equal to the target does nothing. -/
theorem main_idle_of_usage (blocks other : Nat) (size : Int) (random : Bool) (env : Env)
    (node : Node) (U : Nat) (hU : getDiskSize (unitVolume blocks other node) = some U)
    (heq : (U : Int) = size) (hU34 : U < 2 ^ 34) :
    (main (unitVolume blocks other) size random env node).events = [] ∧
      (main (unitVolume blocks other) size random env node).exit = ExitStatus.success ∧
      calls Op.allocate (main (unitVolume blocks other) size random env node) = 0 ∧
      calls Op.delete (main (unitVolume blocks other) size random env node) = 0 := by
  have h := main_on_unitVolume blocks other size random env node U hU (by omega) (by omega)
  rw [if_neg (by omega), if_neg (by omega)] at h
  rw [h]
  simp [calls]

/-- A run of `main` that finds usage above the target calls `deleteChunk`. -/
theorem main_deletes_of_usage (blocks other : Nat) (size : Int) (random : Bool) (env : Env)
    (node : Node) (U : Nat) (hU : getDiskSize (unitVolume blocks other node) = some U)
    (hlt : size < (U : Int)) (hno : -2 ^ 63 < size - (U : Int)) (hU34 : U < 2 ^ 34) :
    0 < calls Op.delete (main (unitVolume blocks other) size random env node) ∧
      calls Op.allocate (main (unitVolume blocks other) size random env node) = 0 := by
  have h := main_on_unitVolume blocks other size random env node U hU (by omega) hno
  rw [if_neg (by omega), if_pos (by omega)] at h
  rw [h]
  have hk := loop_kind Op.delete (unitOp random env Op.delete) env.since
    ((U : Int) - size).toNat 0 node
  rw [calls_of_kind Op.delete Op.delete _ hk, calls_of_kind Op.allocate Op.delete _ hk,
    if_pos rfl, if_neg (by decide)]
  refine ⟨?_, rfl⟩
  obtain ⟨t, ht⟩ : ∃ t, ((U : Int) - size).toNat = t + 1 := ⟨((U : Int) - size).toNat - 1, by omega⟩
  rw [ht]
  exact List.length_pos.mpr (loop_pos_events _ _ _ t 0 node)

/-- C9, as stated, fails: on a volume of 2^20 blocks with 2 GiB in use
outside the reserved directory and an empty reserved directory (usage 2), a
first run with target 1 completes fully (its one planned delete-operation
runs, finds no candidate and returns `nil`, without a slow iteration) and
leaves the volume as it was, so a second run with the same target performs
one delete-operation again, not zero. -/
theorem main_second_run_repeats :
    getDiskSize (unitVolume (2 ^ 20) (2 ^ 19) (Node.dir [])) = some 2 ∧
      (main (unitVolume (2 ^ 20) (2 ^ 19)) 1 false calmEnv (Node.dir [])) =
        ⟨[⟨Op.delete, none, some 1000000000⟩], ExitStatus.success, Node.dir []⟩ ∧
      (main (unitVolume (2 ^ 20) (2 ^ 19)) 1 false calmEnv
        (main (unitVolume (2 ^ 20) (2 ^ 19)) 1 false calmEnv (Node.dir [])).node).events =
        [⟨Op.delete, none, some 1000000000⟩] ∧
      calls Op.delete (main (unitVolume (2 ^ 20) (2 ^ 19)) 1 false calmEnv
        (main (unitVolume (2 ^ 20) (2 ^ 19)) 1 false calmEnv (Node.dir [])).node) = 1 := by
  decide

/-- C9, amended: for every target D, every initial state of the reserved
path and both directions, on a volume of fewer than 2^52 blocks of 4096
bytes whose usage is the data outside the reserved directory plus 1 GiB for
each entry of that directory, the initial contents and D GB fitting in the
volume, with distinct entry names and every allocate-operation of the first
run writing under a file name not yet in the directory: if a first run of
`main` with target D completes fully (no error, no slow iteration) and, when
D < U, the reserved directory holds at least U - D qualifying files, then
`getDiskSize` returns D on the resulting state and a second run with the
same D performs zero allocate-operations and zero delete-operations and ends
normally. The condition on qualifying files cannot be dropped: when D < U,
D - U > -2^63 and fewer than U - D files qualify, the second run calls
`deleteChunk` at least once. -/
theorem main_second_run_idle (blocks other : Nat) (size : Int) (random : Bool)
    (env1 env2 : Env) (node : Node) (U : Nat)
    (hU : getDiskSize (unitVolume blocks other node) = some U)
    (hblocks : blocks < 2 ^ 52)
    (hfit0 : other + 2 ^ 18 * (dirEntries node).length ≤ blocks)
    (hfit : size * 2 ^ 18 ≤ blocks)
    (hfresh : ((dirEntries node).map Entry.Name ++
      (List.range (size - (U : Int)).toNat).map
        (fun x => sprintfHex (env1.allocOracle x).now)).Nodup)
    (hclean : ∀ ev ∈ (main (unitVolume blocks other) size random env1 node).events,
      ev.err = none ∧ ∀ d, ev.since = some d → d ≤ 10 * Minute) :
    ((size < (U : Int) →
          ((U : Int) - size).toNat ≤ ((dirEntries node).filter qualifies).length) →
        (∃ U1 : Nat, getDiskSize (unitVolume blocks other
            (main (unitVolume blocks other) size random env1 node).node) = some U1 ∧
          (U1 : Int) = size) ∧
        (main (unitVolume blocks other) size random env2
          (main (unitVolume blocks other) size random env1 node).node).events = [] ∧
        (main (unitVolume blocks other) size random env2
          (main (unitVolume blocks other) size random env1 node).node).exit =
          ExitStatus.success ∧
        calls Op.allocate (main (unitVolume blocks other) size random env2
          (main (unitVolume blocks other) size random env1 node).node) = 0 ∧
        calls Op.delete (main (unitVolume blocks other) size random env2
          (main (unitVolume blocks other) size random env1 node).node) = 0) ∧
      ((size < (U : Int) ∧
          ((dirEntries node).filter qualifies).length < ((U : Int) - size).toNat ∧
          -2 ^ 63 < size - (U : Int)) →
        0 < calls Op.delete (main (unitVolume blocks other) size random env2
          (main (unitVolume blocks other) size random env1 node).node) ∧
        calls Op.allocate (main (unitVolume blocks other) size random env2
          (main (unitVolume blocks other) size random env1 node).node) = 0) := by
  have hU0 := getDiskSize_unitVolume blocks other node hblocks
  rw [hU] at hU0
  have hUeq : U = min (other + 2 ^ 18 * (dirEntries node).length) blocks / 2 ^ 18 :=
    Option.some.inj hU0
  have hU1 := getDiskSize_unitVolume blocks other
    (main (unitVolume blocks other) size random env1 node).node hblocks
  have hqle : ((dirEntries node).filter qualifies).length ≤ (dirEntries node).length :=
    List.length_filter_le _ _
  have key : -2 ^ 63 < size - (U : Int) →
      ((size < (U : Int) →
          ((U : Int) - size).toNat ≤ ((dirEntries node).filter qualifies).length) →
        (∃ U1 : Nat, getDiskSize (unitVolume blocks other
            (main (unitVolume blocks other) size random env1 node).node) = some U1 ∧
          (U1 : Int) = size) ∧
        (main (unitVolume blocks other) size random env2
          (main (unitVolume blocks other) size random env1 node).node).events = [] ∧
        (main (unitVolume blocks other) size random env2
          (main (unitVolume blocks other) size random env1 node).node).exit =
          ExitStatus.success ∧
        calls Op.allocate (main (unitVolume blocks other) size random env2
          (main (unitVolume blocks other) size random env1 node).node) = 0 ∧
        calls Op.delete (main (unitVolume blocks other) size random env2
          (main (unitVolume blocks other) size random env1 node).node) = 0) ∧
      ((size < (U : Int) ∧
          ((dirEntries node).filter qualifies).length < ((U : Int) - size).toNat) →
        0 < calls Op.delete (main (unitVolume blocks other) size random env2
          (main (unitVolume blocks other) size random env1 node).node) ∧
        calls Op.allocate (main (unitVolume blocks other) size random env2
          (main (unitVolume blocks other) size random env1 node).node) = 0) := by
    intro hno
    have hmain := main_on_unitVolume blocks other size random env1 node U hU (by omega) hno
    rcases lt_trichotomy size (U : Int) with hlt | heq | hgt
    · rw [if_neg (by omega), if_pos (by omega)] at hmain
      rw [hmain] at hclean hU1 ⊢
      have hz : (size - (U : Int)).toNat = 0 := by omega
      rw [hz] at hfresh
      have hnodup : ((dirEntries node).map Entry.Name).Nodup := by simpa using hfresh
      have hcount := loop_delete_count random env1 _ 0 node hclean hnodup
      constructor
      · intro hq
        have hq1 := hq hlt
        have hconv : ((min (other + 2 ^ 18 * (dirEntries (loop Op.delete
            (unitOp random env1 Op.delete) env1.since ((U : Int) - size).toNat 0
            node).node).length) blocks / 2 ^ 18 : Nat) : Int) = size := by
          omega
        exact ⟨⟨_, hU1, hconv⟩, main_idle_of_usage blocks other size random env2 _ _ hU1 hconv
          (by omega)⟩
      · rintro ⟨_, hq⟩
        exact main_deletes_of_usage blocks other size random env2 _ _ hU1 (by omega) (by omega)
          (by omega)
    · rw [if_neg (by omega), if_neg (by omega)] at hmain
      rw [hmain]
      constructor
      · intro _
        exact ⟨⟨U, hU, heq.symm⟩, main_idle_of_usage blocks other size random env2 node U hU
          heq.symm (by omega)⟩
      · rintro ⟨h, _⟩
        omega
    · rw [if_pos (by omega)] at hmain
      rw [hmain] at hclean hU1 ⊢
      rw [List.range_eq_range'] at hfresh
      have hlen := loop_allocate_names random env1 _ 0 node hclean hfresh
      constructor
      · intro _
        have hconv : ((min (other + 2 ^ 18 * (dirEntries (loop Op.allocate
            (unitOp random env1 Op.allocate) env1.since (size - (U : Int)).toNat 0
            node).node).length) blocks / 2 ^ 18 : Nat) : Int) = size := by
          omega
        exact ⟨⟨_, hU1, hconv⟩, main_idle_of_usage blocks other size random env2 _ _ hU1 hconv
          (by omega)⟩
      · rintro ⟨h, _⟩
        omega
  constructor
  · intro hq
    have hno : -2 ^ 63 < size - (U : Int) := by
      by_cases hlt : size < (U : Int)
      · have := hq hlt
        omega
      · omega
    exact (key hno).1 hq
  · rintro ⟨hlt, hq, hno⟩
    exact (key hno).2 ⟨hlt, hq⟩

set_option maxRecDepth 100000 in
/-- Witness of `main_second_run_idle`, in both directions, on a volume of
2^20 blocks that holds the three fillers of the example directory and
nothing else (usage 3): a run with target 2 deletes one file and a run with
target 4 allocates one; each second run does nothing. -/
theorem main_second_run_idle_witness :
    ((∃ U1 : Nat, getDiskSize (unitVolume (2 ^ 20) 0
          (main (unitVolume (2 ^ 20) 0) 2 false calmEnv (Node.dir exampleDir)).node) = some U1 ∧
        (U1 : Int) = 2) ∧
      (main (unitVolume (2 ^ 20) 0) 2 false calmEnv
        (main (unitVolume (2 ^ 20) 0) 2 false calmEnv (Node.dir exampleDir)).node).events = [] ∧
      (main (unitVolume (2 ^ 20) 0) 2 false calmEnv
        (main (unitVolume (2 ^ 20) 0) 2 false calmEnv (Node.dir exampleDir)).node).exit =
        ExitStatus.success ∧
      calls Op.allocate (main (unitVolume (2 ^ 20) 0) 2 false calmEnv
        (main (unitVolume (2 ^ 20) 0) 2 false calmEnv (Node.dir exampleDir)).node) = 0 ∧
      calls Op.delete (main (unitVolume (2 ^ 20) 0) 2 false calmEnv
        (main (unitVolume (2 ^ 20) 0) 2 false calmEnv (Node.dir exampleDir)).node) = 0) ∧
    ((∃ U1 : Nat, getDiskSize (unitVolume (2 ^ 20) 0
          (main (unitVolume (2 ^ 20) 0) 4 false calmEnv (Node.dir exampleDir)).node) = some U1 ∧
        (U1 : Int) = 4) ∧
      (main (unitVolume (2 ^ 20) 0) 4 false calmEnv
        (main (unitVolume (2 ^ 20) 0) 4 false calmEnv (Node.dir exampleDir)).node).events = [] ∧
      (main (unitVolume (2 ^ 20) 0) 4 false calmEnv
        (main (unitVolume (2 ^ 20) 0) 4 false calmEnv (Node.dir exampleDir)).node).exit =
        ExitStatus.success ∧
      calls Op.allocate (main (unitVolume (2 ^ 20) 0) 4 false calmEnv
        (main (unitVolume (2 ^ 20) 0) 4 false calmEnv (Node.dir exampleDir)).node) = 0 ∧
      calls Op.delete (main (unitVolume (2 ^ 20) 0) 4 false calmEnv
        (main (unitVolume (2 ^ 20) 0) 4 false calmEnv (Node.dir exampleDir)).node) = 0) :=
  ⟨(main_second_run_idle (2 ^ 20) 0 2 false calmEnv calmEnv (Node.dir exampleDir) 3
      (by decide) (by decide) (by decide) (by decide) (by decide) (by decide)).1
      (fun _ => by decide),
    (main_second_run_idle (2 ^ 20) 0 4 false calmEnv calmEnv (Node.dir exampleDir) 3
      (by decide) (by decide) (by decide) (by decide) (by decide) (by decide)).1
      (fun h => absurd h (by decide))⟩

end DiskPrealloc
